import Mathlib

/-!
Verification of the SeedCash key-derivation and address-encoding core.

This file gives a shallow embedding, in Lean 4, of the functions of
`src/seedcash/models/btc_functions.py` and `src/seedcash/models/seed.py`
that the checked claims are about, together with models of the Python
standard-library primitives those functions call (`hashlib.sha256`,
`hashlib.sha512`, `hmac`, `hashlib.pbkdf2_hmac`, RIPEMD-160, `int.to_bytes`,
`int.from_bytes`, the `base58` package, and the relevant pieces of the
`ecdsa` package).  Bytes are `Nat`s below 256, byte strings are `List Nat`,
and machine arithmetic is `Nat` arithmetic with explicit reduction
modulo `2 ^ 32` or `2 ^ 64` where the Python code relies on fixed-width
words.  Python exceptions are modelled by an explicit `Except` result
carrying the exception class name and message.

The theorems at the end of the file settle the claims C1–C10: each claim
theorem is stated against these embeddings, with a second definition
following the specification text wherever the claim compares the code with
the specification.
-/

namespace SeedCash

/-! ## Bytes, bits and fixed-width big-endian digits -/

/-- Big-endian digits of `n` in base `2 ^ w`, written with exactly `k` digits
(the leading digits are zero when `n` is small, the high bits of `n` are
dropped when it is large). -/
def beDigits (w : Nat) : Nat → Nat → List Nat
  | 0, _ => []
  | k + 1, n => n / 2 ^ (w * k) % 2 ^ w :: beDigits w k n

/-- Fixed-width big-endian bytes of `n`: Python `n.to_bytes(k, "big")` when
`n < 256 ^ k`. -/
def beBytes (k n : Nat) : List Nat := beDigits 8 k n

/-- Value of a big-endian digit string in base `2 ^ w` (each digit is taken
modulo nothing: callers establish digits are below `2 ^ w`). -/
def valueOf (w : Nat) (ds : List Nat) : Nat := ds.foldl (fun a d => a * 2 ^ w + d) 0

/-- Python `int.from_bytes(bs, "big")`. -/
def bytesToNat (bs : List Nat) : Nat := valueOf 8 bs

/-- Python `int.to_bytes(k, "big")`: fails with `OverflowError` when the
value needs more than `k` bytes. -/
def toBytesBE (n k : Nat) : Option (List Nat) :=
  if n < 256 ^ k then some (beBytes k n) else none

/-- Big-endian bits of `n`, written with exactly `k` bits. -/
def beBits (k n : Nat) : List Nat := beDigits 1 k n

/-- Value of a big-endian bit string, Python `int(s, 2)`. -/
def bitsToNat (bs : List Nat) : Nat := valueOf 1 bs

/-! ## SHA-256 (model of Python `hashlib.sha256`, FIPS 180-4) -/

/-- Right rotation of a 32-bit word. -/
def rotr32 (x k : Nat) : Nat := ((x >>> k) ||| (x <<< (32 - k))) % 2 ^ 32

/-- The 64 SHA-256 round constants. -/
def sha256K : List Nat := [
  0x428A2F98, 0x71374491, 0xB5C0FBCF, 0xE9B5DBA5,
  0x3956C25B, 0x59F111F1, 0x923F82A4, 0xAB1C5ED5,
  0xD807AA98, 0x12835B01, 0x243185BE, 0x550C7DC3,
  0x72BE5D74, 0x80DEB1FE, 0x9BDC06A7, 0xC19BF174,
  0xE49B69C1, 0xEFBE4786, 0xFC19DC6, 0x240CA1CC,
  0x2DE92C6F, 0x4A7484AA, 0x5CB0A9DC, 0x76F988DA,
  0x983E5152, 0xA831C66D, 0xB00327C8, 0xBF597FC7,
  0xC6E00BF3, 0xD5A79147, 0x6CA6351, 0x14292967,
  0x27B70A85, 0x2E1B2138, 0x4D2C6DFC, 0x53380D13,
  0x650A7354, 0x766A0ABB, 0x81C2C92E, 0x92722C85,
  0xA2BFE8A1, 0xA81A664B, 0xC24B8B70, 0xC76C51A3,
  0xD192E819, 0xD6990624, 0xF40E3585, 0x106AA070,
  0x19A4C116, 0x1E376C08, 0x2748774C, 0x34B0BCB5,
  0x391C0CB3, 0x4ED8AA4A, 0x5B9CCA4F, 0x682E6FF3,
  0x748F82EE, 0x78A5636F, 0x84C87814, 0x8CC70208,
  0x90BEFFFA, 0xA4506CEB, 0xBEF9A3F7, 0xC67178F2]

/-- Working state of the SHA-256 (and, reused, SHA-512) compression
function: eight words `a`–`h`. -/
structure HashState where
  a : Nat
  b : Nat
  c : Nat
  d : Nat
  e : Nat
  f : Nat
  g : Nat
  h : Nat
deriving Repr, DecidableEq

/-- The eight words of a state, in order. -/
def HashState.list (s : HashState) : List Nat := [s.a, s.b, s.c, s.d, s.e, s.f, s.g, s.h]

/-- Pointwise modular sum of two states (the feed-forward of each block). -/
def HashState.add (m : Nat) (s t : HashState) : HashState :=
  ⟨(s.a + t.a) % m, (s.b + t.b) % m, (s.c + t.c) % m, (s.d + t.d) % m,
   (s.e + t.e) % m, (s.f + t.f) % m, (s.g + t.g) % m, (s.h + t.h) % m⟩

/-- SHA-256 initial state. -/
def sha256H0 : HashState :=
  ⟨0x6A09E667, 0xBB67AE85, 0x3C6EF372, 0xA54FF53A,
   0x510E527F, 0x9B05688C, 0x1F83D9AB, 0x5BE0CD19⟩

/-- One SHA-256 round: `kw` is the round constant added to the scheduled word. -/
def sha256Round (s : HashState) (kw : Nat) : HashState :=
  let s1 := rotr32 s.e 6 ^^^ rotr32 s.e 11 ^^^ rotr32 s.e 25
  let ch := (s.e &&& s.f) ^^^ ((s.e ^^^ 0xFFFFFFFF) &&& s.g)
  let t1 := (s.h + s1 + ch + kw) % 2 ^ 32
  let s0 := rotr32 s.a 2 ^^^ rotr32 s.a 13 ^^^ rotr32 s.a 22
  let mj := (s.a &&& s.b) ^^^ (s.a &&& s.c) ^^^ (s.b &&& s.c)
  let t2 := (s0 + mj) % 2 ^ 32
  ⟨(t1 + t2) % 2 ^ 32, s.a, s.b, s.c, (s.d + t1) % 2 ^ 32, s.e, s.f, s.g⟩

/-- Extend a 16-word block to the full 64-word SHA-256 message schedule. -/
def sha256Extend : Nat → List Nat → List Nat
  | 0, w => w
  | k + 1, w =>
    let n := w.length
    let x15 := w.getD (n - 15) 0
    let x2 := w.getD (n - 2) 0
    let s0 := rotr32 x15 7 ^^^ rotr32 x15 18 ^^^ (x15 >>> 3)
    let s1 := rotr32 x2 17 ^^^ rotr32 x2 19 ^^^ (x2 >>> 10)
    sha256Extend k (w ++ [(w.getD (n - 16) 0 + s0 + w.getD (n - 7) 0 + s1) % 2 ^ 32])

/-- Split a list into chunks of `n` (the final chunk may be short); the first
argument is fuel, instantiated with the list length. -/
def chunksAux (n : Nat) : Nat → List α → List (List α)
  | 0, _ => []
  | _ + 1, [] => []
  | fuel + 1, l => l.take n :: chunksAux n fuel (l.drop n)

/-- Split a list into chunks of `n`. -/
def chunksOf (n : Nat) (l : List α) : List (List α) := chunksAux n l.length l

/-- Group a byte string (big-endian) into words of `wb` bytes each. -/
def bytesToWordsBE (wb : Nat) (bs : List Nat) : List Nat :=
  (chunksOf wb bs).map bytesToNat

/-- SHA-2 padding: append `0x80`, then zeros, then the bit length on
`lenBytes` bytes, reaching a multiple of the block size `bl`. -/
def shaPad (bl lenBytes : Nat) (msg : List Nat) : List Nat :=
  msg ++ 0x80 :: List.replicate ((bl - (msg.length + 1 + lenBytes) % bl) % bl) 0
      ++ beBytes lenBytes (8 * msg.length)

/-- Process one 64-byte SHA-256 block. -/
def sha256Block (s : HashState) (block : List Nat) : HashState :=
  let w := sha256Extend 48 (bytesToWordsBE 4 block)
  HashState.add (2 ^ 32) s ((sha256K.zip w).foldl (fun st p => sha256Round st ((p.1 + p.2) % 2 ^ 32)) s)

/-- SHA-256 digest of a byte string, as 32 bytes: model of Python
`hashlib.sha256(msg).digest()`. -/
def sha256 (msg : List Nat) : List Nat :=
  ((chunksOf 64 (shaPad 64 8 msg)).foldl sha256Block sha256H0).list.flatMap (beBytes 4)

/-! ## SHA-512 (model of Python `hashlib.sha512`, FIPS 180-4) -/

/-- Right rotation of a 64-bit word. -/
def rotr64 (x k : Nat) : Nat := ((x >>> k) ||| (x <<< (64 - k))) % 2 ^ 64

/-- The 80 SHA-512 round constants. -/
def sha512K : List Nat := [
  0x428A2F98D728AE22, 0x7137449123EF65CD, 0xB5C0FBCFEC4D3B2F, 0xE9B5DBA58189DBBC,
  0x3956C25BF348B538, 0x59F111F1B605D019, 0x923F82A4AF194F9B, 0xAB1C5ED5DA6D8118,
  0xD807AA98A3030242, 0x12835B0145706FBE, 0x243185BE4EE4B28C, 0x550C7DC3D5FFB4E2,
  0x72BE5D74F27B896F, 0x80DEB1FE3B1696B1, 0x9BDC06A725C71235, 0xC19BF174CF692694,
  0xE49B69C19EF14AD2, 0xEFBE4786384F25E3, 0xFC19DC68B8CD5B5, 0x240CA1CC77AC9C65,
  0x2DE92C6F592B0275, 0x4A7484AA6EA6E483, 0x5CB0A9DCBD41FBD4, 0x76F988DA831153B5,
  0x983E5152EE66DFAB, 0xA831C66D2DB43210, 0xB00327C898FB213F, 0xBF597FC7BEEF0EE4,
  0xC6E00BF33DA88FC2, 0xD5A79147930AA725, 0x6CA6351E003826F, 0x142929670A0E6E70,
  0x27B70A8546D22FFC, 0x2E1B21385C26C926, 0x4D2C6DFC5AC42AED, 0x53380D139D95B3DF,
  0x650A73548BAF63DE, 0x766A0ABB3C77B2A8, 0x81C2C92E47EDAEE6, 0x92722C851482353B,
  0xA2BFE8A14CF10364, 0xA81A664BBC423001, 0xC24B8B70D0F89791, 0xC76C51A30654BE30,
  0xD192E819D6EF5218, 0xD69906245565A910, 0xF40E35855771202A, 0x106AA07032BBD1B8,
  0x19A4C116B8D2D0C8, 0x1E376C085141AB53, 0x2748774CDF8EEB99, 0x34B0BCB5E19B48A8,
  0x391C0CB3C5C95A63, 0x4ED8AA4AE3418ACB, 0x5B9CCA4F7763E373, 0x682E6FF3D6B2B8A3,
  0x748F82EE5DEFB2FC, 0x78A5636F43172F60, 0x84C87814A1F0AB72, 0x8CC702081A6439EC,
  0x90BEFFFA23631E28, 0xA4506CEBDE82BDE9, 0xBEF9A3F7B2C67915, 0xC67178F2E372532B,
  0xCA273ECEEA26619C, 0xD186B8C721C0C207, 0xEADA7DD6CDE0EB1E, 0xF57D4F7FEE6ED178,
  0x6F067AA72176FBA, 0xA637DC5A2C898A6, 0x113F9804BEF90DAE, 0x1B710B35131C471B,
  0x28DB77F523047D84, 0x32CAAB7B40C72493, 0x3C9EBE0A15C9BEBC, 0x431D67C49C100D4C,
  0x4CC5D4BECB3E42B6, 0x597F299CFC657E2A, 0x5FCB6FAB3AD6FAEC, 0x6C44198C4A475817]

/-- SHA-512 initial state. -/
def sha512H0 : HashState :=
  ⟨0x6A09E667F3BCC908, 0xBB67AE8584CAA73B, 0x3C6EF372FE94F82B, 0xA54FF53A5F1D36F1,
   0x510E527FADE682D1, 0x9B05688C2B3E6C1F, 0x1F83D9ABFB41BD6B, 0x5BE0CD19137E2179⟩

/-- One SHA-512 round. -/
def sha512Round (s : HashState) (kw : Nat) : HashState :=
  let s1 := rotr64 s.e 14 ^^^ rotr64 s.e 18 ^^^ rotr64 s.e 41
  let ch := (s.e &&& s.f) ^^^ ((s.e ^^^ 0xFFFFFFFFFFFFFFFF) &&& s.g)
  let t1 := (s.h + s1 + ch + kw) % 2 ^ 64
  let s0 := rotr64 s.a 28 ^^^ rotr64 s.a 34 ^^^ rotr64 s.a 39
  let mj := (s.a &&& s.b) ^^^ (s.a &&& s.c) ^^^ (s.b &&& s.c)
  let t2 := (s0 + mj) % 2 ^ 64
  ⟨(t1 + t2) % 2 ^ 64, s.a, s.b, s.c, (s.d + t1) % 2 ^ 64, s.e, s.f, s.g⟩

/-- Extend a 16-word block to the full 80-word SHA-512 message schedule. -/
def sha512Extend : Nat → List Nat → List Nat
  | 0, w => w
  | k + 1, w =>
    let n := w.length
    let x15 := w.getD (n - 15) 0
    let x2 := w.getD (n - 2) 0
    let s0 := rotr64 x15 1 ^^^ rotr64 x15 8 ^^^ (x15 >>> 7)
    let s1 := rotr64 x2 19 ^^^ rotr64 x2 61 ^^^ (x2 >>> 6)
    sha512Extend k (w ++ [(w.getD (n - 16) 0 + s0 + w.getD (n - 7) 0 + s1) % 2 ^ 64])

/-- Process one 128-byte SHA-512 block. -/
def sha512Block (s : HashState) (block : List Nat) : HashState :=
  let w := sha512Extend 64 (bytesToWordsBE 8 block)
  HashState.add (2 ^ 64) s ((sha512K.zip w).foldl (fun st p => sha512Round st ((p.1 + p.2) % 2 ^ 64)) s)

/-- SHA-512 digest of a byte string, as 64 bytes: model of Python
`hashlib.sha512(msg).digest()`. -/
def sha512 (msg : List Nat) : List Nat :=
  ((chunksOf 128 (shaPad 128 16 msg)).foldl sha512Block sha512H0).list.flatMap (beBytes 8)

/-! ## HMAC and PBKDF2 (models of Python `hmac.new` and `hashlib.pbkdf2_hmac`) -/

/-- HMAC over an arbitrary hash with block size `bl` (RFC 2104, as Python
`hmac.new(key, msg, H).digest()`). -/
def hmacWith (H : List Nat → List Nat) (bl : Nat) (key msg : List Nat) : List Nat :=
  let k0 := if bl < key.length then H key else key
  let k1 := k0 ++ List.replicate (bl - k0.length) 0
  H ((k1.map (· ^^^ 0x5C)) ++ H ((k1.map (· ^^^ 0x36)) ++ msg))

/-- The repository's `BitcoinFunctions.hmac_sha512`: HMAC-SHA512. -/
def hmac_sha512 (key data : List Nat) : List Nat := hmacWith sha512 128 key data

/-- Iterate `U ↦ hmac(pw, U)` and xor the results together (the inner loop of
PBKDF2): returns the xor-accumulator after `c` further iterations. -/
def pbkdf2Iter (pw : List Nat) : Nat → List Nat → List Nat → List Nat
  | 0, _, acc => acc
  | c + 1, u, acc =>
    let u2 := hmac_sha512 pw u
    pbkdf2Iter pw c u2 (acc.zipWith (· ^^^ ·) u2)

/-- PBKDF2-HMAC-SHA512: model of Python
`hashlib.pbkdf2_hmac("sha512", pw, salt, c, dklen)` (RFC 2898). -/
def pbkdf2_hmac_sha512 (pw salt : List Nat) (c dklen : Nat) : List Nat :=
  (((List.range ((dklen + 63) / 64)).map fun b =>
      let u1 := hmac_sha512 pw (salt ++ beBytes 4 (b + 1))
      pbkdf2Iter pw (c - 1) u1 u1).flatten).take dklen

/-! ## RIPEMD-160 (model of Python `hashlib.new("ripemd160")`) -/

/-- Left rotation of a 32-bit word. -/
def rotl32 (x k : Nat) : Nat := ((x <<< k) ||| (x >>> (32 - k))) % 2 ^ 32

/-- RIPEMD-160 message-word order, left line. -/
def ripemdRL : List Nat := [
  0, 1, 2, 3, 4, 5, 6, 7, 8, 9, 10, 11, 12, 13, 14, 15,
  7, 4, 13, 1, 10, 6, 15, 3, 12, 0, 9, 5, 2, 14, 11, 8,
  3, 10, 14, 4, 9, 15, 8, 1, 2, 7, 0, 6, 13, 11, 5, 12,
  1, 9, 11, 10, 0, 8, 12, 4, 13, 3, 7, 15, 14, 5, 6, 2,
  4, 0, 5, 9, 7, 12, 2, 10, 14, 1, 3, 8, 11, 6, 15, 13]

/-- RIPEMD-160 message-word order, right line. -/
def ripemdRR : List Nat := [
  5, 14, 7, 0, 9, 2, 11, 4, 13, 6, 15, 8, 1, 10, 3, 12,
  6, 11, 3, 7, 0, 13, 5, 10, 14, 15, 8, 12, 4, 9, 1, 2,
  15, 5, 1, 3, 7, 14, 6, 9, 11, 8, 12, 2, 10, 0, 4, 13,
  8, 6, 4, 1, 3, 11, 15, 0, 5, 12, 2, 13, 9, 7, 10, 14,
  12, 15, 10, 4, 1, 5, 8, 7, 6, 2, 13, 14, 0, 3, 9, 11]

/-- RIPEMD-160 rotation amounts, left line. -/
def ripemdSL : List Nat := [
  11, 14, 15, 12, 5, 8, 7, 9, 11, 13, 14, 15, 6, 7, 9, 8,
  7, 6, 8, 13, 11, 9, 7, 15, 7, 12, 15, 9, 11, 7, 13, 12,
  11, 13, 6, 7, 14, 9, 13, 15, 14, 8, 13, 6, 5, 12, 7, 5,
  11, 12, 14, 15, 14, 15, 9, 8, 9, 14, 5, 6, 8, 6, 5, 12,
  9, 15, 5, 11, 6, 8, 13, 12, 5, 12, 13, 14, 11, 8, 5, 6]

/-- RIPEMD-160 rotation amounts, right line. -/
def ripemdSR : List Nat := [
  8, 9, 9, 11, 13, 15, 15, 5, 7, 7, 8, 11, 14, 14, 12, 6,
  9, 13, 15, 7, 12, 8, 9, 11, 7, 7, 12, 7, 6, 15, 13, 11,
  9, 7, 15, 11, 8, 6, 6, 14, 12, 13, 5, 14, 13, 13, 7, 5,
  15, 5, 8, 11, 14, 14, 6, 14, 6, 9, 12, 9, 12, 5, 15, 8,
  8, 5, 12, 9, 12, 5, 14, 6, 8, 13, 6, 5, 15, 13, 11, 11]

/-- The RIPEMD-160 selection function for round `j` (of 80). -/
def ripemdF (j x y z : Nat) : Nat :=
  if j < 16 then x ^^^ y ^^^ z
  else if j < 32 then (x &&& y) ||| ((x ^^^ 0xFFFFFFFF) &&& z)
  else if j < 48 then (x ||| (y ^^^ 0xFFFFFFFF)) ^^^ z
  else if j < 64 then (x &&& z) ||| (y &&& (z ^^^ 0xFFFFFFFF))
  else x ^^^ (y ||| (z ^^^ 0xFFFFFFFF))

/-- RIPEMD-160 round constants, left line, for round `j`. -/
def ripemdKL (j : Nat) : Nat :=
  if j < 16 then 0 else if j < 32 then 0x5A827999 else if j < 48 then 0x6ED9EBA1
  else if j < 64 then 0x8F1BBCDC else 0xA953FD4E

/-- RIPEMD-160 round constants, right line, for round `j`. -/
def ripemdKR (j : Nat) : Nat :=
  if j < 16 then 0x50A28BE6 else if j < 32 then 0x5C4DD124 else if j < 48 then 0x6D703EF3
  else if j < 64 then 0x7A6D76E9 else 0

/-- One line of the RIPEMD-160 compression: state is `(a, b, c, d, e)`. -/
def ripemdStep (x : List Nat) (rsel ssel : List Nat) (kf : Nat → Nat) (flip : Bool)
    (st : Nat × Nat × Nat × Nat × Nat) (j : Nat) : Nat × Nat × Nat × Nat × Nat :=
  let (a, b, c, d, e) := st
  let fj := if flip then ripemdF (79 - j) b c d else ripemdF j b c d
  let t := (rotl32 ((a + fj + x.getD (rsel.getD j 0) 0 + kf j) % 2 ^ 32) (ssel.getD j 0) + e) % 2 ^ 32
  (e, t, b, rotl32 c 10, d)

/-- Process one 64-byte RIPEMD-160 block over the 5-word chaining state. -/
def ripemdBlock (h : List Nat) (block : List Nat) : List Nat :=
  let x := (chunksOf 4 block).map (fun c => valueOf 8 c.reverse)
  let init := (h.getD 0 0, h.getD 1 0, h.getD 2 0, h.getD 3 0, h.getD 4 0)
  let (al, bl2, cl, dl, el) := (List.range 80).foldl (ripemdStep x ripemdRL ripemdSL ripemdKL false) init
  let (ar, br, cr, dr, er) := (List.range 80).foldl (ripemdStep x ripemdRR ripemdSR ripemdKR true) init
  [(h.getD 1 0 + cl + dr) % 2 ^ 32, (h.getD 2 0 + dl + er) % 2 ^ 32,
   (h.getD 3 0 + el + ar) % 2 ^ 32, (h.getD 4 0 + al + br) % 2 ^ 32,
   (h.getD 0 0 + bl2 + cr) % 2 ^ 32]

/-- RIPEMD-160 padding: like SHA-2 but with a little-endian length field. -/
def ripemdPad (msg : List Nat) : List Nat :=
  msg ++ 0x80 :: List.replicate ((64 - (msg.length + 9) % 64) % 64) 0
      ++ (beBytes 8 (8 * msg.length)).reverse

/-- RIPEMD-160 digest of a byte string, as 20 bytes. -/
def ripemd160 (msg : List Nat) : List Nat :=
  ((chunksOf 64 (ripemdPad msg)).foldl ripemdBlock
      [0x67452301, 0xEFCDAB89, 0x98BADCFE, 0x10325476, 0xC3D2E1F0]).flatMap
    (fun wd => (beBytes 4 wd).reverse)

/-! ## Text helpers: UTF-8, hex, joining words -/

/-- UTF-8 encoding of one Unicode code point (Python `str.encode("utf-8")`,
per code point; Lean `Char` carries no surrogates, as Python strings that
encode successfully carry none). -/
def utf8Char (c : Nat) : List Nat :=
  if c < 0x80 then [c]
  else if c < 0x800 then [0xC0 ||| c >>> 6, 0x80 ||| c &&& 0x3F]
  else if c < 0x10000 then
    [0xE0 ||| c >>> 12, 0x80 ||| (c >>> 6) &&& 0x3F, 0x80 ||| c &&& 0x3F]
  else
    [0xF0 ||| c >>> 18, 0x80 ||| (c >>> 12) &&& 0x3F,
     0x80 ||| (c >>> 6) &&& 0x3F, 0x80 ||| c &&& 0x3F]

/-- UTF-8 bytes of a string: Python `s.encode("utf-8")`. -/
def utf8 (s : String) : List Nat := s.data.flatMap fun ch => utf8Char ch.toNat

/-- The sixteen lowercase hex digits. -/
def hexDigitChars : List Char := "0123456789abcdef".toList

/-- Lowercase hex string of a byte string: Python `bytes.hex()`. -/
def bytesToHex (bs : List Nat) : String :=
  String.mk (bs.flatMap fun b => [hexDigitChars.getD (b / 16 % 16) ' ', hexDigitChars.getD (b % 16) ' '])

/-- Python `" ".join(words)`. -/
def joinWords (ws : List String) : String := String.intercalate " " ws

/-! ## Base58 (model of the `base58` package, Bitcoin alphabet) -/

/-- The Bitcoin Base58 alphabet. -/
def b58Alphabet : List Char := "123456789ABCDEFGHJKLMNPQRSTUVWXYZabcdefghijkmnopqrstuvwxyz".toList

/-- Big-endian base-`b` digits of `n` with no leading zero digit (`[]` for 0):
the loop of `b58encode_int` / minimal `int.to_bytes`.  The first argument is
fuel, instantiated with `n` itself (the digit count is at most `n` for
`b ≥ 2`). -/
def natDigitsAux (b : Nat) : Nat → Nat → List Nat
  | 0, _ => []
  | _ + 1, 0 => []
  | fuel + 1, n => natDigitsAux b fuel (n / b) ++ [n % b]

/-- Big-endian base-`b` digits of `n`, minimal form. -/
def natDigits (b n : Nat) : List Nat := natDigitsAux b n n

/-- Python's whitespace characters, as stripped by `str.rstrip()` (ASCII
range; the Base58 alphabet never meets the non-ASCII ones). -/
def pySpace (c : Char) : Bool :=
  c = ' ' ∨ c = '\t' ∨ c = '\n' ∨ c = '\x0d' ∨ c = Char.ofNat 11 ∨ c = Char.ofNat 12

/-- Python `str.rstrip()`. -/
def pyRstrip (s : List Char) : List Char := (s.reverse.dropWhile pySpace).reverse

/-- `b58encode`: strip leading zero bytes, write the remaining value in
base 58, and put one `1` per stripped zero byte in front. -/
def b58encode (bs : List Nat) : String :=
  let stripped := bs.dropWhile (· = 0)
  String.mk (List.replicate (bs.length - stripped.length) '1'
    ++ (natDigits 58 (bytesToNat stripped)).map fun d => b58Alphabet.getD d ' ')

/-- Decode one Base58 character (`None` = `ValueError` in the package). -/
def b58DigitOf (c : Char) : Option Nat :=
  let i := b58Alphabet.indexOf c
  if i < 58 then some i else none

/-- Fold Base58 digits into a value: `b58decode_int`. -/
def b58Value : List Char → Nat → Option Nat
  | [], acc => some acc
  | c :: cs, acc => (b58DigitOf c).bind fun d => b58Value cs (acc * 58 + d)

/-- `b58decode`: right-strip whitespace, strip leading `1`s, decode the rest
as a base-58 value and write it in minimal big-endian bytes, prefixed by one
zero byte per stripped `1` (`none` models the package's `ValueError` on a
character outside the alphabet). -/
def b58decode (s : String) : Option (List Nat) :=
  let v := pyRstrip s.toList
  let stripped := v.dropWhile (· = '1')
  (b58Value stripped 0).map fun acc =>
    List.replicate (v.length - stripped.length) 0 ++ natDigits 256 acc

/-! ## secp256k1 (model of the pieces of the `ecdsa` package the code uses) -/

/-- The secp256k1 field prime. -/
def secp256k1P : Nat := 2 ^ 256 - 2 ^ 32 - 977

/-- The secp256k1 group order (`SECP256k1.order` in the `ecdsa` package). -/
def secp256k1N : Nat := 0xFFFFFFFFFFFFFFFFFFFFFFFFFFFFFFFEBAAEDCE6AF48A03BBFD25E8CD0364141

/-- x-coordinate of the secp256k1 generator. -/
def secp256k1Gx : Nat := 0x79BE667EF9DCBBAC55A06295CE870B07029BFCDB2DCE28D959F2815B16F81798

/-- y-coordinate of the secp256k1 generator. -/
def secp256k1Gy : Nat := 0x483ADA7726A3C4655DA4FBFC0E1108A8FD17B448A68554199C47D08FFB10D4B8

/-- Modular exponentiation by squaring; the first argument of the auxiliary
is fuel, instantiated with the exponent. -/
def powModAux (m : Nat) : Nat → Nat → Nat → Nat
  | 0, _, _ => 1 % m
  | fuel + 1, b, e =>
    if e = 0 then 1 % m
    else
      let r := powModAux m fuel (b * b % m) (e / 2)
      if e % 2 = 1 then r * b % m else r

/-- Modular exponentiation `b ^ e % m`. -/
def powMod (b e m : Nat) : Nat := powModAux m e (b % m) e

/-- Modular inverse in the secp256k1 field, via Fermat. -/
def invModP (a : Nat) : Nat := powMod a (secp256k1P - 2) secp256k1P

/-- An affine secp256k1 point; `none` is the point at infinity. -/
abbrev ECPoint := Option (Nat × Nat)

/-- Point doubling (coordinates kept reduced modulo the field prime). -/
def ecDouble : ECPoint → ECPoint
  | none => none
  | some (x, y) =>
    if y = 0 then none
    else
      let p := secp256k1P
      let l := 3 * x * x % p * invModP (2 * y % p) % p
      let x2 := (l * l + 2 * (p - x % p)) % p
      some (x2, (l * ((x + (p - x2)) % p) + (p - y % p)) % p)

/-- Point addition (coordinates kept reduced modulo the field prime). -/
def ecAdd : ECPoint → ECPoint → ECPoint
  | none, q => q
  | some pt, none => some pt
  | some (x1, y1), some (x2, y2) =>
    let p := secp256k1P
    if x1 % p = x2 % p then
      if (y1 + y2) % p = 0 then none else ecDouble (some (x1, y1))
    else
      let l := (y2 + (p - y1 % p)) % p * invModP ((x2 + (p - x1 % p)) % p) % p
      let x3 := (l * l + (p - x1 % p) + (p - x2 % p)) % p
      some (x3, (l * ((x1 + (p - x3)) % p) + (p - y1 % p)) % p)

/-- Scalar multiplication by double-and-add. -/
def scalarMult (k : Nat) (P : ECPoint) : ECPoint :=
  if h : k = 0 then none
  else
    let half := scalarMult (k / 2) (ecDouble P)
    if k % 2 = 1 then ecAdd P half else half
termination_by k
decreasing_by exact Nat.div_lt_self (Nat.pos_of_ne_zero h) (by omega)

/-- A Python exception: its class name and message. -/
structure PyException where
  cls : String
  msg : String
deriving DecidableEq, Repr

/-- Compressed 33-byte SEC1 form of an affine point
(`VerifyingKey.to_string("compressed")`). -/
def pointToCompressed (pt : Nat × Nat) : List Nat :=
  (if pt.2 % 2 = 0 then 0x02 else 0x03) :: beBytes 32 pt.1

/-- Decode a 33-byte compressed SEC1 public key
(`VerifyingKey.from_string`): wrong length, wrong tag byte, an x outside
the field or a point off the curve fail with the package's
`MalformedPointError`. -/
def decompressPoint (bs : List Nat) : Except PyException (Nat × Nat) :=
  let p := secp256k1P
  if bs.length ≠ 33 then .error ⟨"MalformedPointError", "bad length"⟩
  else if bs.headD 0 ≠ 0x02 ∧ bs.headD 0 ≠ 0x03 then .error ⟨"MalformedPointError", "bad tag"⟩
  else
    let x := bytesToNat bs.tail
    if p ≤ x then .error ⟨"MalformedPointError", "x out of range"⟩
    else
      let y2 := (powMod x 3 p + 7) % p
      let y := powMod y2 ((p + 1) / 4) p
      if y * y % p ≠ y2 then .error ⟨"MalformedPointError", "point not on curve"⟩
      else .ok (x, if (y % 2 = 0) = (bs.headD 0 = 0x02) then y else p - y)

/-! ## Embeddings of `ecdsa.util` helpers (`string_to_number`,
`number_to_string`, `orderlen`) -/

/-- Length of Python `"%x" % n`. -/
def hexLenPy (n : Nat) : Nat := if n = 0 then 1 else (natDigits 16 n).length

/-- `ecdsa.util.orderlen`. -/
def orderlen (order : Nat) : Nat := (1 + hexLenPy order) / 2

/-- `ecdsa.util.string_to_number`. -/
def string_to_number (bs : List Nat) : Nat := bytesToNat bs

/-- `ecdsa.util.number_to_string`: the number written big-endian on
`orderlen order` bytes; its `assert` fails (`none`) when the number does
not fit. -/
def number_to_string (num order : Nat) : Option (List Nat) :=
  if num < 256 ^ orderlen order then some (beBytes (orderlen order) num) else none

/-! ## Embedding of `BitcoinFunctions` (`models/btc_functions.py`) -/

/-- `BitcoinFunctions.hash160`: RIPEMD-160 of SHA-256. -/
def hash160 (pubkey : List Nat) : List Nat := ripemd160 (sha256 pubkey)

/-- `BitcoinFunctions.child_key_hardened` (lines 185–203): `none` models the
unreachable `OverflowError`/`assert` failures of `int.to_bytes` and
`number_to_string`. -/
def child_key_hardened (parent_key parent_chain_code : List Nat) (index : Nat)
    (hardened : Bool) : Option (List Nat × List Nat) :=
  let index2 := if hardened then index ||| 0x80000000 else index
  (toBytesBE index2 4).bind fun index_bytes =>
    let data := 0x00 :: (parent_key ++ index_bytes)
    let I := hmac_sha512 parent_chain_code data
    let Il := I.take 32
    let chain_code := I.drop 32
    let number_derived := (string_to_number Il + string_to_number parent_key) % secp256k1N
    (number_to_string number_derived secp256k1N).map fun derivet_key => (derivet_key, chain_code)

/-- `BitcoinFunctions.seed_generator` (lines 135–153): PBKDF2-HMAC-SHA512 of
the mnemonic sentence with salt `b"mnemonic" + passphrase`, 2048 rounds,
64 bytes, returned as a hex string. -/
def seed_generator (seed passphrase : String) : String :=
  let mnemonic_bytes := utf8 seed
  let passphrase_bytes := utf8 passphrase
  let salt_bytes := [0x6D, 0x6E, 0x65, 0x6D, 0x6F, 0x6E, 0x69, 0x63] ++ passphrase_bytes
  bytesToHex (pbkdf2_hmac_sha512 mnemonic_bytes salt_bytes 2048 64)

/-- `Seed.mnemonic_str` (`models/seed.py`): the words joined by single
spaces. -/
def mnemonic_str (mnemonic : List String) : String := joinWords mnemonic

/-- `BitcoinFunctions.xpriv_encode` (lines 257–273). -/
def xpriv_encode (depth father_fingerprint child_index account_chain_code account_key :
    List Nat) : String :=
  let version := [0x04, 0x88, 0xAD, 0xE4]
  let data := version ++ depth ++ father_fingerprint ++ child_index ++ account_chain_code
      ++ 0x00 :: account_key
  let checksum := (sha256 (sha256 data)).take 4
  b58encode (data ++ checksum)

/-- `BitcoinFunctions.xpub_encode` (lines 275–290). -/
def xpub_encode (depth father_fingerprint child_index account_chain_code account_public_key :
    List Nat) : String :=
  let version := [0x04, 0x88, 0xB2, 0x1E]
  let data := version ++ depth ++ father_fingerprint ++ child_index ++ account_chain_code
      ++ account_public_key
  let checksum := (sha256 (sha256 data)).take 4
  b58encode (data ++ checksum)

/-- `BitcoinFunctions.xpub_decode` (lines 317–330): Base58-decode and slice
the fields out; `none` models only the `ValueError` of `b58decode` on a
character outside the alphabet. -/
def xpub_decode (xpub : String) :
    Option (List Nat × List Nat × List Nat × List Nat × List Nat × List Nat) :=
  (b58decode xpub).map fun xb =>
    (xb.take 4, (xb.drop 4).take 1, (xb.drop 5).take 4, (xb.drop 9).take 4,
     (xb.drop 13).take 32, ((xb.take (xb.length - 4)).drop 45))

/-- `BitcoinFunctions.derive_public_child_key` (lines 332–364). -/
def derive_public_child_key (parent_public_key_bytes parent_chain_code : List Nat)
    (index : Nat) : Except PyException (List Nat × List Nat) :=
  match toBytesBE index 4 with
  | none => .error ⟨"OverflowError", "int too big to convert"⟩
  | some idx4 =>
    let data := parent_public_key_bytes ++ idx4
    let I := hmac_sha512 parent_chain_code data
    let IL := I.take 32
    let IR := I.drop 32
    let IL_int := bytesToNat IL
    if secp256k1N ≤ IL_int then .error ⟨"ValueError", ""⟩
    else
      match decompressPoint parent_public_key_bytes with
      | .error e => .error e
      | .ok pp =>
        match ecAdd (scalarMult IL_int (some (secp256k1Gx, secp256k1Gy))) (some pp) with
        | none => .error ⟨"MalformedPointError", "point at infinity"⟩
        | some cp => .ok (pointToCompressed cp, IR)

/-- `BitcoinFunctions.public_key_to_legacy_address` (lines 366–388). -/
def public_key_to_legacy_address (public_key_bytes : List Nat) : String :=
  let ripemd160_hash := ripemd160 (sha256 public_key_bytes)
  let versioned_hash := 0x00 :: ripemd160_hash
  let checksum := (sha256 (sha256 versioned_hash)).take 4
  b58encode (versioned_hash ++ checksum)

/-- The while-loop of `BitcoinFunctions.convert_bits`: as long as at least
`to_bits` bits are pending, emit the top `to_bits` of them. -/
def whileEmit (to_bits maxv acc : Nat) (bits : Nat) (ret : List Nat) : Nat × List Nat :=
  if _h : 0 < to_bits ∧ to_bits ≤ bits then
    whileEmit to_bits maxv acc (bits - to_bits) (ret ++ [(acc >>> (bits - to_bits)) &&& maxv])
  else (bits, ret)
termination_by bits
decreasing_by omega

/-- One iteration of the `for` loop of `BitcoinFunctions.convert_bits`:
shift the new value into the accumulator and run the emitting while-loop. -/
def convStep (from_bits to_bits : Nat) : Nat × Nat × List Nat → Nat → Nat × Nat × List Nat
  | (acc, bits, ret), value =>
    let acc2 := (acc <<< from_bits) ||| value
    let br := whileEmit to_bits ((1 <<< to_bits) - 1) acc2 (bits + from_bits) ret
    (acc2, br.1, br.2)

/-- `BitcoinFunctions.convert_bits` (lines 32–46): regroup a stream of
`from_bits`-bit values into `to_bits`-bit values. -/
def convert_bits (data : List Nat) (from_bits to_bits : Nat) (pad : Bool) : List Nat :=
  let maxv := (1 <<< to_bits) - 1
  let st := data.foldl (convStep from_bits to_bits) (0, 0, [])
  if pad ∧ st.2.1 ≠ 0 then st.2.2 ++ [(st.1 <<< (to_bits - st.2.1)) &&& maxv] else st.2.2

/-- `BitcoinFunctions.polymod` (lines 48–64). -/
def polymod (values : List Nat) : Nat :=
  (values.foldl (fun c d =>
    let c0 := c >>> 35
    let c1 := ((c &&& 0x07FFFFFFFF) <<< 5) ^^^ d
    let c2 := if c0 &&& 0x01 ≠ 0 then c1 ^^^ 0x98F2BC8E61 else c1
    let c3 := if c0 &&& 0x02 ≠ 0 then c2 ^^^ 0x79B76D99E2 else c2
    let c4 := if c0 &&& 0x04 ≠ 0 then c3 ^^^ 0xF33E5FB3C4 else c3
    let c5 := if c0 &&& 0x08 ≠ 0 then c4 ^^^ 0xAE2EABE2A8 else c4
    if c0 &&& 0x10 ≠ 0 then c5 ^^^ 0x1E4F43E470 else c5) 1) ^^^ 1

/-- The 32-symbol CashAddr charset. -/
def base32Charset : List Char := "qpzry9x8gf2tvdw0s3jn54khce6mua7l".toList

/-- `BitcoinFunctions.encode_base32` (lines 66–69). -/
def encode_base32 (data : List Nat) : String :=
  String.mk (data.map fun d => base32Charset.getD d ' ')

/-- `BitcoinFunctions.create_checksum` (lines 421–425). -/
def create_checksum (pfx : String) (payload : List Nat) : List Nat :=
  let values := (pfx.toList.map fun x => x.toNat &&& 0x1F) ++ [0] ++ payload
  let pm := polymod (values ++ [0, 0, 0, 0, 0, 0, 0, 0])
  (List.range 8).map fun i => (pm >>> (5 * (7 - i))) &&& 0x1F

/-- `BitcoinFunctions.public_key_to_cashaddr_address` (lines 427–436). -/
def public_key_to_cashaddr_address (pubkey : List Nat) : String :=
  let payload := 0x00 :: hash160 pubkey
  let payload_5bit := convert_bits payload 8 5 true
  let checksum := create_checksum "bitcoincash" payload_5bit
  "bitcoincash:" ++ encode_base32 (payload_5bit ++ checksum)

/-! ## Arithmetic of fixed-width digit strings -/

theorem foldl_valueOf (w a : Nat) (ds : List Nat) :
    ds.foldl (fun x d => x * 2 ^ w + d) a = a * 2 ^ (w * ds.length) + valueOf w ds := by
  induction ds generalizing a with
  | nil => simp [valueOf]
  | cons d ds ih =>
    show List.foldl _ (a * 2 ^ w + d) ds = _
    rw [ih (a * 2 ^ w + d)]
    have : valueOf w (d :: ds) = d * 2 ^ (w * ds.length) + valueOf w ds := by
      show List.foldl _ (0 * 2 ^ w + d) ds = _
      rw [ih (0 * 2 ^ w + d)]; ring_nf
    rw [this]
    simp [List.length_cons, Nat.mul_succ, Nat.pow_add]
    ring

theorem valueOf_cons (w d : Nat) (ds : List Nat) :
    valueOf w (d :: ds) = d * 2 ^ (w * ds.length) + valueOf w ds := by
  show List.foldl _ (0 * 2 ^ w + d) ds = _
  rw [foldl_valueOf]; ring_nf

theorem valueOf_lt (w : Nat) (ds : List Nat) (h : ∀ d ∈ ds, d < 2 ^ w) :
    valueOf w ds < 2 ^ (w * ds.length) := by
  induction ds with
  | nil => simp [valueOf]
  | cons d ds ih =>
    rw [valueOf_cons]
    have hd : d < 2 ^ w := h d (by simp)
    have hds : valueOf w ds < 2 ^ (w * ds.length) := ih fun x hx => h x (by simp [hx])
    calc d * 2 ^ (w * ds.length) + valueOf w ds
        < d * 2 ^ (w * ds.length) + 2 ^ (w * ds.length) := by omega
      _ = (d + 1) * 2 ^ (w * ds.length) := by ring
      _ ≤ 2 ^ w * 2 ^ (w * ds.length) := Nat.mul_le_mul_right _ hd
      _ = 2 ^ (w * (d :: ds).length) := by
          rw [← Nat.pow_add]; congr 1; simp [List.length_cons]; ring

theorem valueOf_append (w : Nat) (xs ys : List Nat) :
    valueOf w (xs ++ ys) = valueOf w xs * 2 ^ (w * ys.length) + valueOf w ys := by
  unfold valueOf
  rw [List.foldl_append, foldl_valueOf]
  rfl

theorem beDigits_length (w k n : Nat) : (beDigits w k n).length = k := by
  induction k generalizing n with
  | zero => rfl
  | succ k ih => simp [beDigits, ih]

theorem beDigits_lt (w k n : Nat) : ∀ d ∈ beDigits w k n, d < 2 ^ w := by
  induction k generalizing n with
  | zero => simp [beDigits]
  | succ k ih =>
    intro d hd
    rcases List.mem_cons.mp hd with h | h
    · exact h ▸ Nat.mod_lt _ (Nat.pos_pow_of_pos w (by omega))
    · exact ih n d h

theorem beDigits_congr_mod (w k : Nat) {m n : Nat}
    (h : m % 2 ^ (w * k) = n % 2 ^ (w * k)) : beDigits w k m = beDigits w k n := by
  induction k generalizing m n with
  | zero => rfl
  | succ k ih =>
    have hsplit : ∀ x : Nat, x / 2 ^ (w * k) % 2 ^ w = x % 2 ^ (w * (k + 1)) / 2 ^ (w * k) := by
      intro x
      rw [Nat.mul_succ, Nat.pow_add, Nat.mod_mul_right_div_self]
    have hmod : m % 2 ^ (w * k) = n % 2 ^ (w * k) := by
      have hdvd : 2 ^ (w * k) ∣ 2 ^ (w * (k + 1)) :=
        Nat.pow_dvd_pow 2 (by simp [Nat.mul_succ])
      rw [← Nat.mod_mod_of_dvd m hdvd, ← Nat.mod_mod_of_dvd n hdvd, h]
    simp only [beDigits]
    rw [hsplit m, hsplit n, h, ih hmod]

theorem beDigits_append (w j k n : Nat) :
    beDigits w (j + k) n = beDigits w j (n / 2 ^ (w * k)) ++ beDigits w k n := by
  induction j generalizing n with
  | zero => simp [beDigits]
  | succ j ih =>
    have h1 : j + 1 + k = (j + k) + 1 := by omega
    rw [h1]
    simp only [beDigits]
    rw [ih]
    have h2 : n / 2 ^ (w * k) / 2 ^ (w * j) = n / 2 ^ (w * (j + k)) := by
      rw [Nat.div_div_eq_div_mul, ← Nat.pow_add]; congr 2; ring
    simp [h2]

theorem valueOf_beDigits (w k n : Nat) :
    valueOf w (beDigits w k n) = n % 2 ^ (w * k) := by
  induction k generalizing n with
  | zero => simp [beDigits, valueOf, Nat.mod_one]
  | succ k ih =>
    simp only [beDigits]
    rw [valueOf_cons, beDigits_length, ih]
    rw [Nat.mul_succ, Nat.pow_add, Nat.mod_mul]
    ring

theorem beDigits_valueOf (w : Nat) (ds : List Nat) (h : ∀ d ∈ ds, d < 2 ^ w) :
    beDigits w ds.length (valueOf w ds) = ds := by
  induction ds with
  | nil => rfl
  | cons d ds ih =>
    have hd : d < 2 ^ w := h d (by simp)
    have hv : valueOf w ds < 2 ^ (w * ds.length) := valueOf_lt w ds fun x hx => h x (by simp [hx])
    rw [List.length_cons]
    simp only [beDigits]
    rw [valueOf_cons]
    have hdiv : (d * 2 ^ (w * ds.length) + valueOf w ds) / 2 ^ (w * ds.length) = d := by
      rw [Nat.mul_comm d, Nat.mul_add_div (Nat.pos_pow_of_pos _ (by omega)),
        Nat.div_eq_of_lt hv]
      omega
    have hmod : (d * 2 ^ (w * ds.length) + valueOf w ds) % 2 ^ (w * ds.length)
        = valueOf w ds % 2 ^ (w * ds.length) := by
      rw [Nat.mul_comm]; exact Nat.mul_add_mod _ _ _
    rw [hdiv, Nat.mod_eq_of_lt hd]
    congr 1
    calc beDigits w ds.length (d * 2 ^ (w * ds.length) + valueOf w ds)
        = beDigits w ds.length (valueOf w ds) := beDigits_congr_mod w ds.length hmod
      _ = ds := ih fun x hx => h x (by simp [hx])

theorem shiftLeft_lor_eq_add (a b w : Nat) (h : b < 2 ^ w) :
    a <<< w ||| b = a * 2 ^ w + b := by
  apply Nat.eq_of_testBit_eq
  intro i
  rw [Nat.testBit_lor, Nat.testBit_shiftLeft, Nat.mul_comm a, Nat.testBit_mul_pow_two_add a h i]
  rcases Nat.lt_or_ge i w with hi | hi
  · simp [hi, Nat.not_le.mpr hi]
  · simp [hi, Nat.not_lt.mpr hi,
      Nat.testBit_eq_false_of_lt (Nat.lt_of_lt_of_le h (Nat.pow_le_pow_right (by omega) hi))]

/-! ## Characterization of `convert_bits` as base conversion -/

theorem div_pow_mod_pow (X r s : Nat) : X / 2 ^ r % 2 ^ s = X % 2 ^ (r + s) / 2 ^ r := by
  rw [Nat.pow_add, Nat.mod_mul_right_div_self]

theorem mod_pow_mod_pow (X r s : Nat) (h : r ≤ s) : X % 2 ^ s % 2 ^ r = X % 2 ^ r :=
  Nat.mod_mod_of_dvd _ (Nat.pow_dvd_pow 2 h)

theorem add_low_mod (A x e f : Nat) (hx : x < 2 ^ f) :
    (A * 2 ^ f + x) % 2 ^ (e + f) = A % 2 ^ e * 2 ^ f + x := by
  rw [Nat.pow_add]
  have h1 : A * 2 ^ f % (2 ^ e * 2 ^ f) = A % 2 ^ e * 2 ^ f := Nat.mul_mod_mul_right _ _ _
  have h2 : A % 2 ^ e * 2 ^ f + x < 2 ^ e * 2 ^ f := by
    have hA : A % 2 ^ e < 2 ^ e := Nat.mod_lt _ (Nat.two_pow_pos e)
    calc A % 2 ^ e * 2 ^ f + x < A % 2 ^ e * 2 ^ f + 2 ^ f := by omega
      _ = (A % 2 ^ e + 1) * 2 ^ f := by ring
      _ ≤ 2 ^ e * 2 ^ f := Nat.mul_le_mul_right _ (by omega)
  calc (A * 2 ^ f + x) % (2 ^ e * 2 ^ f)
      = (A * 2 ^ f % (2 ^ e * 2 ^ f) + x % (2 ^ e * 2 ^ f)) % (2 ^ e * 2 ^ f) := by
        rw [Nat.add_mod]
    _ = (A % 2 ^ e * 2 ^ f + x) % (2 ^ e * 2 ^ f) := by
        rw [h1, Nat.mod_eq_of_lt (lt_of_lt_of_le hx (Nat.le_mul_of_pos_left _ (Nat.two_pow_pos e)))]
    _ = A % 2 ^ e * 2 ^ f + x := Nat.mod_eq_of_lt h2

theorem split_div (W m e r : Nat) (h : r ≤ e) :
    (m * 2 ^ e + W) / 2 ^ r = m * 2 ^ (e - r) + W / 2 ^ r := by
  have he : 2 ^ e = 2 ^ (e - r) * 2 ^ r := by rw [← Nat.pow_add]; congr 1; omega
  rw [he, ← Nat.mul_assoc, Nat.add_comm, Nat.add_mul_div_right _ _ (Nat.two_pow_pos r)]
  omega

theorem mul_add_small_div (W nv s : Nat) (h : nv < 2 ^ s) : (W * 2 ^ s + nv) / 2 ^ s = W := by
  rw [Nat.mul_comm, Nat.mul_add_div (Nat.two_pow_pos s), Nat.div_eq_of_lt h, Nat.add_zero]

theorem whileEmit_spec (to_bits maxv acc : Nat) (hto : 0 < to_bits)
    (hmax : maxv = 2 ^ to_bits - 1) :
    ∀ bits ret, whileEmit to_bits maxv acc bits ret
      = (bits % to_bits,
         ret ++ beDigits to_bits (bits / to_bits) (acc >>> (bits % to_bits))) := by
  intro bits
  induction bits using Nat.strong_induction_on with
  | _ bits IH =>
    intro ret
    rw [whileEmit]
    split
    case isTrue h =>
      rw [IH (bits - to_bits) (by omega)]
      have h1 : (bits - to_bits) % to_bits = bits % to_bits := (Nat.mod_eq_sub_mod h.2).symm
      have h2 : bits / to_bits = (bits - to_bits) / to_bits + 1 := Nat.div_eq_sub_div hto h.2
      rw [h1, h2]
      have h3 : beDigits to_bits ((bits - to_bits) / to_bits + 1) (acc >>> (bits % to_bits))
          = acc >>> (bits % to_bits) / 2 ^ (to_bits * ((bits - to_bits) / to_bits)) % 2 ^ to_bits
            :: beDigits to_bits ((bits - to_bits) / to_bits) (acc >>> (bits % to_bits)) := rfl
      rw [h3]
      have e1 : bits % to_bits + to_bits * ((bits - to_bits) / to_bits) = bits - to_bits := by
        have := Nat.div_add_mod (bits - to_bits) to_bits
        omega
      have h4 : acc >>> (bits % to_bits) / 2 ^ (to_bits * ((bits - to_bits) / to_bits))
          = acc >>> (bits - to_bits) := by
        rw [Nat.shiftRight_eq_div_pow, Nat.shiftRight_eq_div_pow, Nat.div_div_eq_div_mul,
          ← Nat.pow_add, e1]
      have h5 : (acc >>> (bits - to_bits)) &&& maxv = acc >>> (bits - to_bits) % 2 ^ to_bits := by
        rw [hmax, Nat.and_pow_two_sub_one_eq_mod]
      simp [h4, h5]
    case isFalse h =>
      have hlt : bits < to_bits := by omega
      simp [Nat.mod_eq_of_lt hlt, Nat.div_eq_of_lt hlt, beDigits]

theorem convert_foldl_spec (fb tb : Nat) (htb : 0 < tb) (data : List Nat) :
    ∀ acc bits ret, (∀ x ∈ data, x < 2 ^ fb) → bits < tb →
    ∃ accF,
      data.foldl (convStep fb tb) (acc, bits, ret) =
        (accF, (bits + fb * data.length) % tb,
          ret ++ beDigits tb ((bits + fb * data.length) / tb)
            ((acc % 2 ^ bits * 2 ^ (fb * data.length) + valueOf fb data) /
              2 ^ ((bits + fb * data.length) % tb)))
      ∧ accF % 2 ^ ((bits + fb * data.length) % tb) =
          (acc % 2 ^ bits * 2 ^ (fb * data.length) + valueOf fb data) %
            2 ^ ((bits + fb * data.length) % tb) := by
  induction data with
  | nil =>
    intro acc bits ret _ hb
    refine ⟨acc, ?_, ?_⟩
    · simp [valueOf, Nat.mod_eq_of_lt hb, Nat.div_eq_of_lt hb, beDigits]
    · simp [valueOf, Nat.mod_eq_of_lt hb]
  | cons x data ih =>
    intro acc bits ret hlt hb
    have hx : x < 2 ^ fb := hlt x (by simp)
    have hmaxv : ((1 : Nat) <<< tb) - 1 = 2 ^ tb - 1 := by rw [Nat.shiftLeft_eq, Nat.one_mul]
    have hstep : convStep fb tb (acc, bits, ret) x =
        ((acc <<< fb) ||| x, (bits + fb) % tb,
         ret ++ beDigits tb ((bits + fb) / tb) (((acc <<< fb) ||| x) >>> ((bits + fb) % tb))) := by
      simp only [convStep]
      rw [whileEmit_spec tb _ _ htb hmaxv]
    rw [List.foldl_cons, hstep]
    have hb1 : (bits + fb) % tb < tb := Nat.mod_lt _ htb
    obtain ⟨accF, hfold, hacc⟩ :=
      ih ((acc <<< fb) ||| x) ((bits + fb) % tb)
        (ret ++ beDigits tb ((bits + fb) / tb) (((acc <<< fb) ||| x) >>> ((bits + fb) % tb)))
        (fun y hy => hlt y (by simp [hy])) hb1
    rw [hfold]
    set q1 := (bits + fb) / tb with hq1
    set b1 := (bits + fb) % tb with hb1def
    set n := data.length with hn
    set A := acc % 2 ^ bits with hA
    set nv := valueOf fb data with hnv
    have hor : (acc <<< fb) ||| x = acc * 2 ^ fb + x := shiftLeft_lor_eq_add _ _ _ hx
    have hW : (acc * 2 ^ fb + x) % 2 ^ (bits + fb) = A * 2 ^ fb + x := add_low_mod acc x bits fb hx
    have hdm1 : tb * q1 + b1 = bits + fb := Nat.div_add_mod (bits + fb) tb
    have hLt : bits + fb * (n + 1) = tb * q1 + (b1 + fb * n) := by
      have h1 : bits + fb * (n + 1) = (bits + fb) + fb * n := by ring
      rw [h1, ← hdm1]; ring
    have hmodLt : (bits + fb * (n + 1)) % tb = (b1 + fb * n) % tb := by
      rw [hLt, Nat.mul_add_mod]
    have hdivLt : (bits + fb * (n + 1)) / tb = q1 + (b1 + fb * n) / tb := by
      rw [hLt, Nat.mul_add_div htb]
    set r := (b1 + fb * n) % tb with hr
    have hnvlt : nv < 2 ^ (fb * n) := valueOf_lt fb data fun y hy => hlt y (by simp [hy])
    have hVt : A * 2 ^ (fb * (n + 1)) + valueOf fb (x :: data)
        = (A * 2 ^ fb + x) * 2 ^ (fb * n) + nv := by
      rw [valueOf_cons]
      have h1 : fb * (n + 1) = fb + fb * n := by ring
      rw [h1, Nat.pow_add, ← hnv, ← hn]
      ring
    have hb1le : b1 ≤ bits + fb := hb1def ▸ Nat.mod_le _ _
    have hacc2 : ((acc <<< fb) ||| x) % 2 ^ b1 = (A * 2 ^ fb + x) % 2 ^ b1 := by
      rw [hor, ← mod_pow_mod_pow (acc * 2 ^ fb + x) b1 (bits + fb) hb1le, hW]
    have hVmod : ((A * 2 ^ fb + x) * 2 ^ (fb * n) + nv) % 2 ^ (b1 + fb * n)
        = (A * 2 ^ fb + x) % 2 ^ b1 * 2 ^ (fb * n) + nv :=
      add_low_mod (A * 2 ^ fb + x) nv b1 (fb * n) hnvlt
    have hrle : r ≤ b1 + fb * n := hr ▸ Nat.mod_le _ _
    have hrs : r + tb * ((b1 + fb * n) / tb) = b1 + fb * n := by
      have h0 := Nat.div_add_mod (b1 + fb * n) tb
      omega
    refine ⟨accF, ?_, ?_⟩
    · simp only [List.length_cons, ← hn]
      rw [hmodLt, hdivLt, hVt, beDigits_append, List.append_assoc]
      refine Prod.ext rfl (Prod.ext rfl ?_)
      simp only
      congr 1
      congr 1
      · have hd1 : ((A * 2 ^ fb + x) * 2 ^ (fb * n) + nv) / 2 ^ r
            / 2 ^ (tb * ((b1 + fb * n) / tb))
            = (A * 2 ^ fb + x) / 2 ^ b1 := by
          rw [Nat.div_div_eq_div_mul, ← Nat.pow_add, hrs]
          have h1 : b1 + fb * n = fb * n + b1 := by ring
          rw [h1, Nat.pow_add, ← Nat.div_div_eq_div_mul, mul_add_small_div _ _ _ hnvlt]
        rw [hd1, Nat.shiftRight_eq_div_pow, hor]
        apply beDigits_congr_mod
        have hsp : acc * 2 ^ fb + x
            = (acc * 2 ^ fb + x) / 2 ^ (bits + fb) * 2 ^ (bits + fb) + (A * 2 ^ fb + x) := by
          rw [← hW]
          exact (Nat.div_add_mod' _ _).symm
        have hbf : bits + fb = b1 + tb * q1 := by omega
        conv_lhs => rw [hsp, hbf]
        rw [split_div _ _ _ _ (Nat.le_add_right b1 (tb * q1)), Nat.add_sub_cancel_left]
        conv_lhs => rw [Nat.add_comm]
        rw [Nat.add_mul_mod_self_right]
      · apply beDigits_congr_mod
        rw [div_pow_mod_pow, div_pow_mod_pow, hrs, hVmod, hacc2, ← hVmod,
          Nat.mod_mod_of_dvd _ dvd_rfl]
    · simp only [List.length_cons, ← hn]
      rw [hmodLt, hacc, hacc2, hVt, ← hVmod]
      exact mod_pow_mod_pow _ _ _ hrle

theorem convert_bits_false_spec (data : List Nat) (fb tb : Nat) (htb : 0 < tb)
    (hd : ∀ x ∈ data, x < 2 ^ fb) :
    convert_bits data fb tb false =
      beDigits tb (fb * data.length / tb) (valueOf fb data / 2 ^ (fb * data.length % tb)) := by
  obtain ⟨accF, hfold, hacc⟩ := convert_foldl_spec fb tb htb data 0 0 [] hd htb
  simp only [Nat.zero_add, Nat.pow_zero, Nat.mod_one, Nat.zero_mul, List.nil_append] at hfold
  unfold convert_bits
  rw [hfold]
  simp

theorem convert_bits_true_spec (data : List Nat) (fb tb : Nat) (htb : 0 < tb)
    (hd : ∀ x ∈ data, x < 2 ^ fb) :
    convert_bits data fb tb true =
      beDigits tb ((fb * data.length + tb - 1) / tb)
        (valueOf fb data * 2 ^ ((tb - fb * data.length % tb) % tb)) := by
  obtain ⟨accF, hfold, hacc⟩ := convert_foldl_spec fb tb htb data 0 0 [] hd htb
  simp only [Nat.zero_add, Nat.pow_zero, Nat.mod_one, Nat.zero_mul, List.nil_append] at hfold hacc
  unfold convert_bits
  rw [hfold]
  have hdm := Nat.div_add_mod (fb * data.length) tb
  by_cases hr : fb * data.length % tb = 0
  · simp only [hr, Nat.sub_zero, Nat.mod_self, Nat.pow_zero, Nat.mul_one, Nat.div_one]
    have hceil : (fb * data.length + tb - 1) / tb = fb * data.length / tb := by
      have h1 : fb * data.length + tb - 1 = tb * (fb * data.length / tb) + (tb - 1) := by omega
      rw [h1, Nat.mul_add_div htb, Nat.div_eq_of_lt (show tb - 1 < tb by omega), Nat.add_zero]
    rw [hceil]
    simp [hr]
  · have hrlt : fb * data.length % tb < tb := Nat.mod_lt _ htb
    have hmod2 : (tb - fb * data.length % tb) % tb = tb - fb * data.length % tb :=
      Nat.mod_eq_of_lt (by omega)
    have hceil : (fb * data.length + tb - 1) / tb = fb * data.length / tb + 1 := by
      have h1 : fb * data.length + tb - 1
          = tb * (fb * data.length / tb + 1) + (fb * data.length % tb - 1) := by
        rw [Nat.mul_succ]; omega
      rw [h1, Nat.mul_add_div htb,
        Nat.div_eq_of_lt (show fb * data.length % tb - 1 < tb by omega), Nat.add_zero]
    rw [hceil, hmod2]
    have hsplit := beDigits_append tb (fb * data.length / tb) 1
      (valueOf fb data * 2 ^ (tb - fb * data.length % tb))
    rw [hsplit]
    have hx1 : valueOf fb data * 2 ^ (tb - fb * data.length % tb) / 2 ^ (tb * 1)
        = valueOf fb data / 2 ^ (fb * data.length % tb) := by
      have h2 : 2 ^ (tb * 1) = 2 ^ (tb - fb * data.length % tb) * 2 ^ (fb * data.length % tb) := by
        rw [← Nat.pow_add]; congr 1; omega
      rw [h2, ← Nat.div_div_eq_div_mul,
        Nat.mul_div_cancel _ (Nat.two_pow_pos (tb - fb * data.length % tb))]
    have hx2 : beDigits tb 1 (valueOf fb data * 2 ^ (tb - fb * data.length % tb))
        = [valueOf fb data % 2 ^ (fb * data.length % tb)
            * 2 ^ (tb - fb * data.length % tb)] := by
      show [valueOf fb data * 2 ^ (tb - fb * data.length % tb) / 2 ^ (tb * 0) % 2 ^ tb] = _
      have h3 : (2 : Nat) ^ tb
          = 2 ^ (fb * data.length % tb) * 2 ^ (tb - fb * data.length % tb) := by
        rw [← Nat.pow_add]; congr 1; omega
      rw [Nat.mul_zero, Nat.pow_zero, Nat.div_one, h3, Nat.mul_mod_mul_right]
    rw [hx1, hx2]
    have hdig : (accF <<< (tb - fb * data.length % tb)) &&& (1 <<< tb - 1)
        = valueOf fb data % 2 ^ (fb * data.length % tb)
            * 2 ^ (tb - fb * data.length % tb) := by
      have hmaxv : ((1 : Nat) <<< tb) - 1 = 2 ^ tb - 1 := by rw [Nat.shiftLeft_eq, Nat.one_mul]
      have h3 : (2 : Nat) ^ tb
          = 2 ^ (fb * data.length % tb) * 2 ^ (tb - fb * data.length % tb) := by
        rw [← Nat.pow_add]; congr 1; omega
      rw [hmaxv, Nat.and_pow_two_sub_one_eq_mod, Nat.shiftLeft_eq, h3,
        Nat.mul_mod_mul_right, hacc]
    simp only [hr, if_pos, ite_true, and_true]
    simp [hr, hdig]

theorem convert_bits_roundtrip (bs : List Nat) (h : ∀ x ∈ bs, x < 256) :
    convert_bits (convert_bits bs 8 5 true) 5 8 false = bs := by
  have h8 : ∀ x ∈ bs, x < 2 ^ 8 := by intro x hx; exact h x hx
  rw [convert_bits_true_spec bs 8 5 (by norm_num) h8]
  have hlt5 : ∀ x ∈ beDigits 5 ((8 * bs.length + 5 - 1) / 5)
      (valueOf 8 bs * 2 ^ ((5 - 8 * bs.length % 5) % 5)), x < 2 ^ 5 :=
    beDigits_lt 5 _ _
  rw [convert_bits_false_spec _ 5 8 (by norm_num) hlt5, beDigits_length]
  have hP : 8 * bs.length + (5 - 8 * bs.length % 5) % 5 = 5 * ((8 * bs.length + 5 - 1) / 5) := by
    omega
  have hV : valueOf 8 bs < 2 ^ (8 * bs.length) := valueOf_lt 8 bs h8
  have hVP : valueOf 8 bs * 2 ^ ((5 - 8 * bs.length % 5) % 5)
      < 2 ^ (5 * ((8 * bs.length + 5 - 1) / 5)) := by
    calc valueOf 8 bs * 2 ^ ((5 - 8 * bs.length % 5) % 5)
        < 2 ^ (8 * bs.length) * 2 ^ ((5 - 8 * bs.length % 5) % 5) :=
          Nat.mul_lt_mul_of_lt_of_le hV (Nat.le_refl _) (Nat.two_pow_pos _)
      _ = 2 ^ (8 * bs.length + (5 - 8 * bs.length % 5) % 5) := (Nat.pow_add 2 _ _).symm
      _ = _ := by rw [hP]
  rw [valueOf_beDigits, Nat.mod_eq_of_lt hVP]
  have h5G8 : 5 * ((8 * bs.length + 5 - 1) / 5) % 8 = (5 - 8 * bs.length % 5) % 5 := by omega
  have h5G8d : 5 * ((8 * bs.length + 5 - 1) / 5) / 8 = bs.length := by omega
  rw [h5G8, h5G8d, Nat.mul_div_cancel _ (Nat.two_pow_pos _)]
  exact beDigits_valueOf 8 bs h8

/-! ## Base58 round-trip -/

/-- Value of a digit string in base `b` (the fold of `b58decode_int`). -/
def digitsVal (b : Nat) (ds : List Nat) : Nat := ds.foldl (fun a d => a * b + d) 0

theorem foldl_digitsVal (b a : Nat) (ds : List Nat) :
    ds.foldl (fun x d => x * b + d) a = a * b ^ ds.length + digitsVal b ds := by
  induction ds generalizing a with
  | nil => simp [digitsVal]
  | cons d ds ih =>
    show List.foldl _ (a * b + d) ds = _
    rw [ih (a * b + d)]
    have hc : digitsVal b (d :: ds) = d * b ^ ds.length + digitsVal b ds := by
      show List.foldl _ (0 * b + d) ds = _
      rw [ih (0 * b + d)]; ring_nf
    rw [hc]
    simp [List.length_cons, Nat.pow_succ]
    ring

theorem digitsVal_concat (b d : Nat) (ds : List Nat) :
    digitsVal b (ds ++ [d]) = digitsVal b ds * b + d := by
  unfold digitsVal
  rw [List.foldl_append]
  rfl

theorem natDigitsAux_zero (b : Nat) : ∀ fuel, natDigitsAux b fuel 0 = [] := by
  intro fuel; cases fuel <;> rfl

theorem natDigitsAux_fuel (b : Nat) (hb : 2 ≤ b) :
    ∀ f1 f2 n, n ≤ f1 → n ≤ f2 → natDigitsAux b f1 n = natDigitsAux b f2 n := by
  intro f1
  induction f1 with
  | zero =>
    intro f2 n h1 _
    have : n = 0 := by omega
    subst this
    rw [natDigitsAux_zero, natDigitsAux_zero]
  | succ g ih =>
    intro f2 n h1 h2
    match n, f2 with
    | 0, f2 => rw [natDigitsAux_zero, natDigitsAux_zero]
    | m + 1, g2 + 1 =>
      show natDigitsAux b g ((m + 1) / b) ++ [(m + 1) % b]
          = natDigitsAux b g2 ((m + 1) / b) ++ [(m + 1) % b]
      have hdiv : (m + 1) / b < m + 1 := Nat.div_lt_self (by omega) (by omega)
      rw [ih g2 ((m + 1) / b) (by omega) (by omega)]

theorem natDigits_step (b n : Nat) (hb : 2 ≤ b) (hn : n ≠ 0) :
    natDigits b n = natDigits b (n / b) ++ [n % b] := by
  match n with
  | m + 1 =>
    show natDigitsAux b m ((m + 1) / b) ++ [(m + 1) % b] = _
    have hdiv : (m + 1) / b < m + 1 := Nat.div_lt_self (by omega) (by omega)
    rw [natDigitsAux_fuel b hb m ((m + 1) / b) ((m + 1) / b) (by omega) (by omega)]
    rfl

theorem natDigits_lt (b : Nat) (hb : 2 ≤ b) (n : Nat) : ∀ d ∈ natDigits b n, d < b := by
  induction n using Nat.strong_induction_on with
  | _ n ih =>
    rcases Nat.eq_zero_or_pos n with h0 | h0
    · subst h0; intro d hd; simp [natDigits, natDigitsAux] at hd
    · rw [natDigits_step b n hb (by omega)]
      intro d hd
      rcases List.mem_append.mp hd with h | h
      · exact ih (n / b) (Nat.div_lt_self h0 (by omega)) d h
      · simp at h; subst h; exact Nat.mod_lt _ (by omega)

theorem digitsVal_natDigits (b : Nat) (hb : 2 ≤ b) (n : Nat) :
    digitsVal b (natDigits b n) = n := by
  induction n using Nat.strong_induction_on with
  | _ n ih =>
    rcases Nat.eq_zero_or_pos n with h0 | h0
    · subst h0; rfl
    · rw [natDigits_step b n hb (by omega), digitsVal_concat,
        ih (n / b) (Nat.div_lt_self h0 (by omega)), Nat.div_add_mod' n b]

theorem natDigits_cons (b : Nat) (hb : 2 ≤ b) (n : Nat) (hn : n ≠ 0) :
    ∃ h t, natDigits b n = h :: t ∧ h ≠ 0 ∧ h < b := by
  induction n using Nat.strong_induction_on with
  | _ n ih =>
    rcases Nat.eq_zero_or_pos (n / b) with hq | hq
    · refine ⟨n % b, [], ?_, ?_, Nat.mod_lt _ (by omega)⟩
      · rw [natDigits_step b n hb hn, hq]; rfl
      · have hlt : n < b := by
          by_contra hge
          have : 1 ≤ n / b := Nat.one_le_div_iff (by omega) |>.mpr (by omega)
          omega
        rw [Nat.mod_eq_of_lt hlt]; exact hn
    · obtain ⟨h, t, he, h0, hlt⟩ := ih (n / b) (Nat.div_lt_self (by omega) (by omega)) (by omega)
      exact ⟨h, t ++ [n % b], by rw [natDigits_step b n hb hn, he]; rfl, h0, hlt⟩

theorem dropWhile_head_false (p : α → Bool) (l : List α) :
    ∀ h t, l.dropWhile p = h :: t → p h = false := by
  induction l with
  | nil => intro h t hx; simp [List.dropWhile] at hx
  | cons c cs ih =>
    intro h t hx
    rw [List.dropWhile_cons] at hx
    by_cases hc : p c = true
    · exact ih h t (by simpa [hc] using hx)
    · have : c = h := by simp [hc] at hx; exact hx.1
      subst this
      simpa using hc

theorem dropWhile_replicate_append (c : α) [DecidableEq α] (n : Nat) (rest : List α) :
    (List.replicate n c ++ rest).dropWhile (· = c) = rest.dropWhile (· = c) := by
  induction n with
  | zero => rfl
  | succ n ih => simp [List.replicate_succ, List.dropWhile_cons, ih]

theorem pyRstrip_eq_self (s : List Char) (h : ∀ c ∈ s, pySpace c = false) :
    pyRstrip s = s := by
  unfold pyRstrip
  cases hrev : s.reverse with
  | nil =>
    simp [List.reverse_eq_nil_iff.mp hrev]
  | cons c t =>
    have hc : pySpace c = false := h c (by
      have : c ∈ s.reverse := by rw [hrev]; simp
      simpa using this)
    rw [List.dropWhile_cons, hc]
    simp [← hrev]

theorem bytesToNat_pos (h0 : Nat) (t : List Nat) (hh : h0 ≠ 0) : 0 < bytesToNat (h0 :: t) := by
  unfold bytesToNat
  rw [valueOf_cons]
  have : 1 ≤ h0 * 2 ^ (8 * t.length) :=
    Nat.one_le_iff_ne_zero.mpr (Nat.mul_ne_zero hh (Nat.pos_iff_ne_zero.mp (Nat.two_pow_pos _)))
  omega

theorem valueOf_singleton (w d : Nat) : valueOf w [d] = d := by
  simp [valueOf]

theorem natDigits_bytesToNat (bs : List Nat) (hbs : ∀ x ∈ bs, x < 256)
    (hhead : bs = [] ∨ bs.headD 0 ≠ 0) : natDigits 256 (bytesToNat bs) = bs := by
  induction bs using List.reverseRecOn with
  | nil => rfl
  | append_singleton xs d ih =>
    have hd : d < 256 := hbs d (by simp)
    cases xs with
    | nil =>
      have hd0 : d ≠ 0 := by
        rcases hhead with h | h
        · simp at h
        · simpa using h
      have hv : bytesToNat [d] = d := valueOf_singleton 8 d
      simp only [List.nil_append, hv]
      rw [natDigits_step 256 d (by omega) hd0, Nat.div_eq_of_lt hd, Nat.mod_eq_of_lt hd]
      rfl
    | cons x0 xt =>
      have hx0 : x0 ≠ 0 := by
        rcases hhead with h | h
        · simp at h
        · simpa using h
      have hpos : 0 < bytesToNat (x0 :: xt) := bytesToNat_pos x0 xt hx0
      have hval : bytesToNat ((x0 :: xt) ++ [d]) = bytesToNat (x0 :: xt) * 256 + d := by
        unfold bytesToNat
        rw [valueOf_append, valueOf_singleton]
        norm_num
      rw [hval]
      have hne : bytesToNat (x0 :: xt) * 256 + d ≠ 0 := by
        have : 0 < bytesToNat (x0 :: xt) * 256 := by omega
        omega
      rw [natDigits_step 256 _ (by omega) hne]
      have hdiv : (bytesToNat (x0 :: xt) * 256 + d) / 256 = bytesToNat (x0 :: xt) := by
        rw [Nat.mul_comm, Nat.mul_add_div (by omega), Nat.div_eq_of_lt hd, Nat.add_zero]
      have hmod : (bytesToNat (x0 :: xt) * 256 + d) % 256 = d := by
        rw [Nat.mul_comm, Nat.mul_add_mod, Nat.mod_eq_of_lt hd]
      rw [hdiv, hmod, ih (fun x hx => hbs x (by
        rcases List.mem_cons.mp hx with h | h
        · simp [h]
        · simp [h])) (Or.inr (by simpa using hx0))]

theorem b58DigitOf_getD : ∀ d, d < 58 → b58DigitOf (b58Alphabet.getD d ' ') = some d := by
  decide

theorem b58_getD_ne_one : ∀ d, d < 58 → d ≠ 0 → b58Alphabet.getD d ' ' ≠ '1' := by
  decide

theorem b58_getD_not_space : ∀ d, d < 58 → pySpace (b58Alphabet.getD d ' ') = false := by
  decide

theorem b58Value_map (ds : List Nat) (hds : ∀ d ∈ ds, d < 58) : ∀ acc : Nat,
    b58Value (ds.map fun d => b58Alphabet.getD d ' ') acc
      = some (acc * 58 ^ ds.length + digitsVal 58 ds) := by
  induction ds with
  | nil => intro acc; simp [b58Value, digitsVal]
  | cons d ds ih =>
    intro acc
    have hd : d < 58 := hds d (by simp)
    simp only [List.map_cons, b58Value, b58DigitOf_getD d hd, Option.some_bind]
    rw [ih (fun x hx => hds x (by simp [hx])) (acc * 58 + d)]
    have hc : digitsVal 58 (d :: ds) = d * 58 ^ ds.length + digitsVal 58 ds := by
      show List.foldl _ (0 * 58 + d) ds = _
      rw [foldl_digitsVal]; ring_nf
    rw [hc]
    congr 1
    simp [List.length_cons, Nat.pow_succ]
    ring

theorem toList_mk (l : List Char) : (String.mk l).toList = l := rfl

theorem b58decode_def (s : String) :
    b58decode s = (b58Value ((pyRstrip s.toList).dropWhile (· = '1')) 0).map fun acc =>
      List.replicate ((pyRstrip s.toList).length
        - ((pyRstrip s.toList).dropWhile (· = '1')).length) 0 ++ natDigits 256 acc := rfl

theorem b58decode_b58encode (bs : List Nat) (h : ∀ x ∈ bs, x < 256) :
    b58decode (b58encode bs) = some bs := by
  have hsplit0 := List.takeWhile_append_dropWhile (fun x => decide (x = 0)) bs
  have hlen0 := congrArg List.length hsplit0
  rw [List.length_append] at hlen0
  cases hsp : bs.dropWhile (· = 0) with
  | nil =>
    have hz : ∀ x ∈ bs, x = 0 := fun x hx => by
      simpa using List.dropWhile_eq_nil_iff.mp hsp x hx
    have hbs : bs = List.replicate bs.length 0 := List.eq_replicate_iff.mpr ⟨rfl, hz⟩
    have henc : b58encode bs = String.mk (List.replicate bs.length '1') := by
      unfold b58encode
      rw [hsp]
      show String.mk (List.replicate (bs.length - ([] : List Nat).length) '1'
        ++ (natDigits 58 (bytesToNat ([] : List Nat))).map fun d => b58Alphabet.getD d ' ') = _
      rw [show bytesToNat ([] : List Nat) = 0 from rfl, show natDigits 58 0 = [] from rfl,
        List.map_nil, List.append_nil, List.length_nil, Nat.sub_zero]
    have hr : pyRstrip (List.replicate bs.length '1') = List.replicate bs.length '1' :=
      pyRstrip_eq_self _ fun c hc => by rw [List.eq_of_mem_replicate hc]; decide
    have hdw : (List.replicate bs.length '1').dropWhile (· = '1') = [] :=
      List.dropWhile_eq_nil_iff.mpr fun x hx => by rw [List.eq_of_mem_replicate hx]; decide
    rw [henc, b58decode_def, toList_mk, hr, hdw]
    show some (List.replicate ((List.replicate bs.length '1').length - ([] : List Char).length) 0
      ++ natDigits 256 0) = some bs
    rw [show natDigits 256 0 = [] from rfl, List.append_nil, List.length_nil, Nat.sub_zero,
      List.length_replicate]
    exact congrArg some hbs.symm
  | cons s0 st =>
    have hs0 : s0 ≠ 0 := by
      simpa using dropWhile_head_false (fun x => decide (x = 0)) bs s0 st hsp
    have hsub : ∀ x ∈ s0 :: st, x < 256 := by
      rw [← hsp]
      exact fun x hx => h x ((List.dropWhile_sublist _).subset hx)
    have hpos : 0 < bytesToNat (s0 :: st) := bytesToNat_pos s0 st hs0
    obtain ⟨h0, t0, hcons, hh0, hh0lt⟩ := natDigits_cons 58 (by omega) _ (by omega : bytesToNat (s0 :: st) ≠ 0)
    have hdlt : ∀ d ∈ natDigits 58 (bytesToNat (s0 :: st)), d < 58 := natDigits_lt 58 (by omega) _
    have henc : b58encode bs = String.mk (List.replicate (bs.length - (s0 :: st).length) '1'
        ++ (natDigits 58 (bytesToNat (s0 :: st))).map fun d => b58Alphabet.getD d ' ') := by
      unfold b58encode
      rw [hsp]
    rw [henc, b58decode_def, toList_mk]
    have hA : pyRstrip (List.replicate (bs.length - (s0 :: st).length) '1'
        ++ (natDigits 58 (bytesToNat (s0 :: st))).map fun d => b58Alphabet.getD d ' ')
        = List.replicate (bs.length - (s0 :: st).length) '1'
        ++ (natDigits 58 (bytesToNat (s0 :: st))).map fun d => b58Alphabet.getD d ' ' := by
      apply pyRstrip_eq_self
      intro c hc
      rcases List.mem_append.mp hc with h1 | h1
      · rw [List.eq_of_mem_replicate h1]; decide
      · obtain ⟨d, hd, rfl⟩ := List.mem_map.mp h1
        exact b58_getD_not_space d (hdlt d hd)
    rw [hA, dropWhile_replicate_append]
    have hdw : ((natDigits 58 (bytesToNat (s0 :: st))).map
        (fun d => b58Alphabet.getD d ' ')).dropWhile (· = '1')
        = (natDigits 58 (bytesToNat (s0 :: st))).map fun d => b58Alphabet.getD d ' ' := by
      have hne2 : ¬(b58Alphabet.getD h0 ' ' = '1') := b58_getD_ne_one h0 hh0lt hh0
      rw [hcons, List.map_cons, List.dropWhile_cons, if_neg (by simpa using hne2)]
    rw [hdw, b58Value_map _ hdlt 0]
    simp only [Option.map_some', Nat.zero_mul, Nat.zero_add]
    rw [digitsVal_natDigits 58 (by omega),
      natDigits_bytesToNat (s0 :: st) hsub (Or.inr (by simpa using hs0))]
    have hlen : (List.replicate (bs.length - (s0 :: st).length) '1'
        ++ (natDigits 58 (bytesToNat (s0 :: st))).map fun d => b58Alphabet.getD d ' ').length
        - ((natDigits 58 (bytesToNat (s0 :: st))).map fun d => b58Alphabet.getD d ' ').length
        = bs.length - (s0 :: st).length := by
      rw [List.length_append, List.length_replicate, Nat.add_sub_cancel]
    rw [hlen]
    have htakelen : (bs.takeWhile (· = 0)).length = bs.length - (s0 :: st).length := by
      rw [hsp] at hlen0
      omega
    have htake : bs.takeWhile (· = 0) = List.replicate (bs.length - (s0 :: st).length) 0 :=
      List.eq_replicate_iff.mpr
        ⟨htakelen, fun b hb => by simpa using List.mem_takeWhile_imp hb⟩
    rw [← htake]
    rw [hsp] at hsplit0
    exact congrArg some hsplit0

/-! ## Lengths and bounds of hash outputs -/

theorem beBytes_length (k n : Nat) : (beBytes k n).length = k := beDigits_length 8 k n

theorem beBytes_lt (k n : Nat) : ∀ b ∈ beBytes k n, b < 256 := beDigits_lt 8 k n

theorem flatMap_const_length (f : Nat → List Nat) (k : Nat) (hf : ∀ x, (f x).length = k) :
    ∀ l : List Nat, (l.flatMap f).length = k * l.length := by
  intro l
  induction l with
  | nil => simp
  | cons x xs ih => simp [List.flatMap_cons, ih, hf x, Nat.mul_succ]; ring

theorem HashState.list_length (s : HashState) : s.list.length = 8 := rfl

theorem sha256_length (msg : List Nat) : (sha256 msg).length = 32 := by
  unfold sha256
  rw [flatMap_const_length _ 4 (fun x => beBytes_length 4 x), HashState.list_length]

theorem sha512_length (msg : List Nat) : (sha512 msg).length = 64 := by
  unfold sha512
  rw [flatMap_const_length _ 8 (fun x => beBytes_length 8 x), HashState.list_length]

theorem sha256_lt (msg : List Nat) : ∀ b ∈ sha256 msg, b < 256 := by
  unfold sha256
  intro b hb
  obtain ⟨a, _, hba⟩ := List.mem_flatMap.mp hb
  exact beBytes_lt 4 a b hba

theorem ripemdFold_length (l : List (List Nat)) :
    ∀ init : List Nat, init.length = 5 → (l.foldl ripemdBlock init).length = 5 := by
  induction l with
  | nil => intro init h; simpa using h
  | cons c cs ih =>
    intro init h
    rw [List.foldl_cons]
    exact ih (ripemdBlock init c) rfl

theorem ripemd160_length (msg : List Nat) : (ripemd160 msg).length = 20 := by
  unfold ripemd160
  have h5 : ([0x67452301, 0xEFCDAB89, 0x98BADCFE, 0x10325476, 0xC3D2E1F0] : List Nat).length = 5 :=
    rfl
  rw [flatMap_const_length _ 4 (fun x => by rw [List.length_reverse, beBytes_length]),
    ripemdFold_length _ _ h5]

theorem ripemd160_lt (msg : List Nat) : ∀ b ∈ ripemd160 msg, b < 256 := by
  unfold ripemd160
  intro b hb
  obtain ⟨a, _, hba⟩ := List.mem_flatMap.mp hb
  exact beBytes_lt 4 a b (List.mem_reverse.mp hba)

theorem hash160_length (pk : List Nat) : (hash160 pk).length = 20 := ripemd160_length _

theorem hash160_lt (pk : List Nat) : ∀ b ∈ hash160 pk, b < 256 := ripemd160_lt _

/-! ## Embedding of `Seed` (`models/seed.py`) -/

/-- Python `list.index` (first index; `none` models the `ValueError`). -/
def pyIndexOf : List String → String → Option Nat
  | [], _ => none
  | x :: xs, w => if x = w then some 0 else (pyIndexOf xs w).map (· + 1)

/-- Python `bin(n)[2:]` as a big-endian bit list (`bin(0)[2:] = "0"`). -/
def pyBin (n : Nat) : List Nat := if n = 0 then [0] else natDigits 2 n

/-- Python `str.zfill(k)` on a digit string: left-pad with zeros to width `k`. -/
def zfill (k : Nat) (ds : List Nat) : List Nat := List.replicate (k - ds.length) 0 ++ ds

/-- The word-lookup loop of `Seed._validate_mnemonic`: the 11-bit-padded
binary index strings of the words, or `InvalidSeedException` at the first
word that is not in the word list. -/
def wordIndexBits (wordlist : List String) : List String → Except PyException (List (List Nat))
  | [] => .ok []
  | w :: ws =>
    match pyIndexOf wordlist w with
    | none => .error ⟨"InvalidSeedException", "Word '" ++ w ++ "' not in wordlist"⟩
    | some i => (wordIndexBits wordlist ws).map fun rest => zfill 11 (pyBin i) :: rest

/-- The checksum-width table of `Seed._validate_mnemonic` (`none` models
`InvalidSeedException("Invalid mnemonic length")`). -/
def checksumBitsOf (len : Nat) : Option Nat :=
  if len = 132 then some 4
  else if len = 165 then some 5
  else if len = 198 then some 6
  else if len = 231 then some 7
  else if len = 264 then some 8
  else none

/-- `Seed._validate_mnemonic` (`models/seed.py`, lines 38–101), parametrized
by the word list that `load_txt("bip39.txt")` reads from the resources
directory (that file is data outside the sources, so it is a parameter
here).  All three failures raise the single exception class
`InvalidSeedException`, with distinct message strings. -/
def _validate_mnemonic (wordlist mnemonic : List String) : Except PyException Bool :=
  match wordIndexBits wordlist mnemonic with
  | .error e => .error e
  | .ok list_index_bi =>
    let bin_mnemonic := list_index_bi.flatten
    match checksumBitsOf bin_mnemonic.length with
    | none => .error ⟨"InvalidSeedException", "Invalid mnemonic length"⟩
    | some checksum_bits =>
      let checksum := bin_mnemonic.drop (bin_mnemonic.length - checksum_bits)
      let entropy_bits := bin_mnemonic.take (bin_mnemonic.length - checksum_bits)
      if entropy_bits.length % 8 ≠ 0 then
        .error ⟨"InvalidSeedException", "Invalid entropy length"⟩
      else
        match toBytesBE (bitsToNat entropy_bits) (entropy_bits.length / 8) with
        | none => .error ⟨"InvalidSeedException", "Validation error: int too big to convert"⟩
        | some entropy_bytes =>
          let computed_checksum :=
            (zfill 256 (pyBin (bytesToNat (sha256 entropy_bytes)))).take checksum_bits
          if checksum ≠ computed_checksum then
            .error ⟨"InvalidSeedException", "Checksum validation failed"⟩
          else .ok true

/-- The attribute record of a `Seed` instance: `__init__` assigns
`_mnemonic`, `_passphrase`, `xpriv`, `xpub` and `fingerprint`;
`set_passphrase` and `generate_seed` only reassign those same names, and no
method ever assigns `seed_bytes`. -/
structure PySeed where
  _mnemonic : List String
  _passphrase : String
  xpriv : String
  xpub : String
  fingerprint : String
deriving DecidableEq, Repr

/-- A Python attribute value of a `Seed` instance. -/
inductive PyAttr where
  | strVal (s : String)
  | listVal (l : List String)
deriving DecidableEq, Repr

/-- Python attribute lookup on a `Seed` instance: exactly the five names a
`Seed` ever assigns resolve; any other name raises `AttributeError`
(modelled by `none`). -/
def PySeed.getattr (s : PySeed) : String → Option PyAttr
  | "_mnemonic" => some (.listVal s._mnemonic)
  | "_passphrase" => some (.strVal s._passphrase)
  | "xpriv" => some (.strVal s.xpriv)
  | "xpub" => some (.strVal s.xpub)
  | "fingerprint" => some (.strVal s.fingerprint)
  | _ => none

/-- A Python value handed to `Seed.__eq__`: another `Seed`, or anything
else. -/
inductive PyValue where
  | seedObj (s : PySeed)
  | nonSeed (tag : String)

/-- `Seed.__eq__` (`models/seed.py`, lines 171–176): for a `Seed` argument it
reads `self.seed_bytes` and `other.seed_bytes` and compares them; for
anything else it returns `False`.  Reading a missing attribute raises
`AttributeError`. -/
def seedEq (self : PySeed) (other : PyValue) : Except PyException Bool :=
  match other with
  | .seedObj o =>
    match self.getattr "seed_bytes" with
    | none => .error ⟨"AttributeError", "'Seed' object has no attribute 'seed_bytes'"⟩
    | some a =>
      match o.getattr "seed_bytes" with
      | none => .error ⟨"AttributeError", "'Seed' object has no attribute 'seed_bytes'"⟩
      | some b => .ok (a = b)
  | .nonSeed _ => .ok false

/-! ## Claim C1: hardened child derivation -/

/-- Modelled from the specification §4.3 `hardenedChild`, for comparison
with `child_key_hardened`: or the index with `0x80000000`, HMAC-SHA512 the
byte string `0x00 ‖ parentPrivKey ‖ be32(index)` under the parent chain
code, and return the sum of the left half and the parent key modulo the
secp256k1 group order as 32 big-endian bytes, next to the right half. -/
def spec_hardenedChild (parentPrivKey parentChainCode : List Nat) (index : Nat) :
    Option (List Nat × List Nat) :=
  (toBytesBE (index ||| 0x80000000) 4).map fun idx4 =>
    let I := hmac_sha512 parentChainCode (0x00 :: (parentPrivKey ++ idx4))
    (beBytes 32 ((bytesToNat (I.take 32) + bytesToNat parentPrivKey) % secp256k1N),
     I.drop 32)

theorem orderlen_secp256k1 : orderlen secp256k1N = 32 := by decide

theorem secp256k1N_pos : 0 < secp256k1N := by decide

theorem secp256k1N_lt : secp256k1N < 256 ^ 32 := by decide

/-- C1: for every 32-byte parent private key, chain code and index, the
hardened branch of `child_key_hardened` computes exactly the
specification's `hardenedChild`: `index' = index ∨ 0x80000000`,
`I = HMAC-SHA512(parentChainCode, 0x00 ‖ parentPrivKey ‖ be32(index'))`,
child scalar `(int(I[0:32]) + int(parentPrivKey)) mod n` serialized on 32
big-endian bytes, and chain code `I[32:64]` (stated for all byte strings
and indices; both sides fail together when `index'` overflows 4 bytes). -/
theorem number_to_string_secp (d : Nat) (h : d < secp256k1N) :
    number_to_string d secp256k1N = some (beBytes 32 d) := by
  unfold number_to_string
  rw [orderlen_secp256k1, if_pos (lt_trans h secp256k1N_lt)]

theorem c1_child_key_hardened_matches_spec
    (parent_key parent_chain_code : List Nat) (index : Nat) :
    child_key_hardened parent_key parent_chain_code index true
      = spec_hardenedChild parent_key parent_chain_code index := by
  unfold child_key_hardened spec_hardenedChild
  simp only [if_true]
  cases htb : toBytesBE (index ||| 0x80000000) 4 with
  | none => rfl
  | some idx4 =>
    simp only [Option.map_some']
    dsimp only [Option.bind]
    rw [number_to_string_secp _ (Nat.mod_lt _ secp256k1N_pos)]
    rfl

/-! ## Claim C2: seed derivation by PBKDF2 -/

/-- Modelled from the specification §4.2 and claim C2: the seed is
PBKDF2-HMAC-SHA512 with the UTF-8 bytes of the space-joined mnemonic
sentence as password, `"mnemonic" ‖ passphrase` as salt, 2048 iterations
and 64 output bytes. -/
def spec_seedOfMnemonic (words : List String) (passphrase : String) : List Nat :=
  pbkdf2_hmac_sha512 (utf8 (joinWords words)) (utf8 "mnemonic" ++ utf8 passphrase) 2048 64

/-- C2: for every mnemonic word sequence and passphrase, the seed the code
derives (`Seed.generate_seed` passes `Seed.mnemonic_str` to
`seed_generator`) is the hex encoding of exactly the specification's
PBKDF2-HMAC-SHA512 with password the space-joined words, salt
`"mnemonic" ‖ passphrase`, 2048 iterations and 64 output bytes. -/
theorem c2_seed_generator_is_pbkdf2 (words : List String) (passphrase : String) :
    seed_generator (mnemonic_str words) passphrase
      = bytesToHex (spec_seedOfMnemonic words passphrase) := by
  unfold seed_generator spec_seedOfMnemonic mnemonic_str
  have hsalt : ([0x6D, 0x6E, 0x65, 0x6D, 0x6F, 0x6E, 0x69, 0x63] : List Nat) = utf8 "mnemonic" := by
    decide
  rw [hsalt]

/-! ## Claim C3: extended-key serialization -/

/-- Modelled from the specification §4.4 and claim C3: serialize
`version(4) ‖ depth(1) ‖ parentFingerprint(4) ‖ childIndex(4) ‖
chainCode(32) ‖ keyField`, append the first four bytes of its double
SHA-256, and Base58-encode. -/
def spec_extendedKeyString
    (version depth parentFingerprint childIndex chainCode keyField : List Nat) : String :=
  let payload := version ++ depth ++ parentFingerprint ++ childIndex ++ chainCode ++ keyField
  b58encode (payload ++ (sha256 (sha256 payload)).take 4)

/-- C3: for every field tuple, `xpriv_encode` is the specification's
Base58Check serialization with version `0x0488ADE4` and key field
`0x00 ‖ privScalar`, and `xpub_encode` is the one with version `0x0488B21E`
and key field the compressed public key, the checksum being the first four
bytes of the double SHA-256 of the payload in both. -/
theorem c3_extended_key_encoders_match_spec
    (depth father_fingerprint child_index account_chain_code account_key
      account_public_key : List Nat) :
    xpriv_encode depth father_fingerprint child_index account_chain_code account_key
        = spec_extendedKeyString [0x04, 0x88, 0xAD, 0xE4] depth father_fingerprint
            child_index account_chain_code (0x00 :: account_key)
    ∧ xpub_encode depth father_fingerprint child_index account_chain_code account_public_key
        = spec_extendedKeyString [0x04, 0x88, 0xB2, 0x1E] depth father_fingerprint
            child_index account_chain_code account_public_key :=
  ⟨rfl, rfl⟩

/-! ## Claim C5: hardened public derivation is never rejected -/

/-- Whether a call raised the specification's
`UnsupportedHardenedPublicDerivation` condition. -/
def raisesUnsupportedHardened : Except PyException (List Nat × List Nat) → Bool
  | .error e => e.cls == "UnsupportedHardenedPublicDerivation"
  | .ok _ => false

theorem decompressPoint_error_cls (bs : List Nat) :
    ∀ e, decompressPoint bs = .error e → e.cls = "MalformedPointError" := by
  intro e h
  unfold decompressPoint at h
  dsimp only at h
  split at h
  · cases h; rfl
  · split at h
    · cases h; rfl
    · split at h
      · cases h; rfl
      · split at h
        · cases h; rfl
        · cases h

/-- C5: `derive_public_child_key` never raises
`UnsupportedHardenedPublicDerivation`, for any index — in particular not
for hardened indices `0x80000000 ≤ index`: the code has no index-range
check at all, and silently derives a child for hardened indices. -/
theorem c5_no_hardened_index_rejection
    (parent_public_key_bytes parent_chain_code : List Nat) (index : Nat) :
    raisesUnsupportedHardened
      (derive_public_child_key parent_public_key_bytes parent_chain_code index) = false := by
  unfold derive_public_child_key
  rcases toBytesBE index 4 with _ | idx4
  · rfl
  · dsimp only
    split
    · rfl
    · rcases hdp : decompressPoint parent_public_key_bytes with e | pp
      · have hcls := decompressPoint_error_cls parent_public_key_bytes e hdp
        simp [raisesUnsupportedHardened, hcls]
      · dsimp only
        split
        · rfl
        · rfl

/-! ## Claim C10: `Seed.__eq__` always raises on Seed-to-Seed comparison -/

/-- C10: comparing two `Seed` instances raises `AttributeError` (the
`seed_bytes` attribute read by `__eq__` is never assigned by any `Seed`
method), and comparing a `Seed` with any non-`Seed` value returns
`False`. -/
theorem c10_seed_eq_raises_attribute_error :
    (∀ a b : PySeed, seedEq a (.seedObj b)
        = .error ⟨"AttributeError", "'Seed' object has no attribute 'seed_bytes'"⟩)
    ∧ (∀ (a : PySeed) (tag : String), seedEq a (.nonSeed tag) = .ok false) :=
  ⟨fun _ _ => rfl, fun _ _ => rfl⟩

/-! ## Claim C9: legacy address payload roundtrips -/

/-- C9: the P2PKH address `b58encode(0x00 ‖ HASH160(pubkey) ‖ checksum)`
decodes back to bytes whose first 21 are exactly `0x00 ‖ HASH160(pubkey)`
(Base58 encode/decode invert on the payload), and the CashAddr 8-bit→5-bit
regrouping of the same 21-byte versioned payload converts back to the
original bytes (`convert_bits` with pad then without invert). -/
theorem c9_address_payload_roundtrips (public_key_bytes : List Nat) :
    (b58decode (public_key_to_legacy_address public_key_bytes)).map (List.take 21)
        = some (0x00 :: hash160 public_key_bytes)
    ∧ convert_bits (convert_bits (0x00 :: hash160 public_key_bytes) 8 5 true) 5 8 false
        = 0x00 :: hash160 public_key_bytes := by
  constructor
  · unfold public_key_to_legacy_address
    have hbounds : ∀ x ∈ (0x00 :: ripemd160 (sha256 public_key_bytes))
        ++ (sha256 (sha256 (0x00 :: ripemd160 (sha256 public_key_bytes)))).take 4,
        x < 256 := by
      intro x hx
      rcases List.mem_append.mp hx with hx | hx
      · rcases List.mem_cons.mp hx with rfl | hx
        · norm_num
        · exact ripemd160_lt _ x hx
      · exact sha256_lt _ x (List.mem_of_mem_take hx)
    rw [b58decode_b58encode _ hbounds, Option.map_some']
    have h21 : (0x00 :: ripemd160 (sha256 public_key_bytes)).length = 21 := by
      rw [List.length_cons, ripemd160_length]
    rw [List.take_left' h21]
    rfl
  · refine convert_bits_roundtrip _ ?_
    intro x hx
    rcases List.mem_cons.mp hx with rfl | hx
    · norm_num
    · exact hash160_lt _ x hx

/-! ## Claim C4: `xpub_decode` does not verify the checksum -/

/-- C4 (corrected): `xpub_decode` Base58-decodes and slices the fields
without verifying the trailing 4-byte checksum: decoding `b58encode bs`
succeeds with the slices of `bs` for every byte string `bs`, whether or
not the last four bytes equal the first four bytes of the double SHA-256
of the rest. -/
theorem c4_xpub_decode_slices_without_checksum_check (bs : List Nat)
    (h : ∀ b ∈ bs, b < 256) :
    xpub_decode (b58encode bs)
      = some (bs.take 4, (bs.drop 4).take 1, (bs.drop 5).take 4, (bs.drop 9).take 4,
          (bs.drop 13).take 32, (bs.take (bs.length - 4)).drop 45) := by
  unfold xpub_decode
  rw [b58decode_b58encode bs h, Option.map_some']

theorem c4_xpub_decode_slices_witness :
    (∀ b ∈ List.range 82, b < 256)
    ∧ xpub_decode (b58encode (List.range 82))
        = some ((List.range 82).take 4, ((List.range 82).drop 4).take 1,
            ((List.range 82).drop 5).take 4, ((List.range 82).drop 9).take 4,
            ((List.range 82).drop 13).take 32,
            ((List.range 82).take ((List.range 82).length - 4)).drop 45) :=
  ⟨by decide, c4_xpub_decode_slices_without_checksum_check (List.range 82) (by decide)⟩

set_option maxRecDepth 40000 in
/-- The string of 82 `'1'` characters decodes (via `xpub_decode`) to the
field slices of 82 zero bytes, although the trailing four zero bytes are
not the double-SHA-256 checksum of the leading 78: the claimed checksum
verification does not exist. -/
theorem c4_checksum_not_verified_counterexample :
    xpub_decode (String.mk (List.replicate 82 '1'))
      = some (List.replicate 4 0, [0], List.replicate 4 0, List.replicate 4 0,
          List.replicate 32 0, List.replicate 33 0)
    ∧ (sha256 (sha256 (List.replicate 78 0))).take 4 ≠ List.replicate 4 0 := by
  constructor
  · rfl
  · decide

/-! ## Claim C7: CashAddr encoding -/

/-- The specification's five BCH generator constants, indexed by the bit
of the top coefficient that selects them. -/
def spec_polymodGenerator : List Nat :=
  [0x98F2BC8E61, 0x79B76D99E2, 0xF33E5FB3C4, 0xAE2EABE2A8, 0x1E4F43E470]

/-- Modelled from the specification §4.6 and claim C7: the BCH `polymod`
written with division, remainder and bit tests — shift the 35-bit
accumulator up five bits, fold in the value, and XOR in the generator
constants selected by the five spilled top bits; finally XOR with 1. -/
def spec_polymod (values : List Nat) : Nat :=
  (values.foldl (fun c d =>
    let c0 := c / 2 ^ 35
    (List.range 5).foldl
      (fun acc i => if c0.testBit i then acc ^^^ spec_polymodGenerator.getD i 0 else acc)
      ((c % 2 ^ 35) * 2 ^ 5 ^^^ d)) 1) ^^^ 1

/-- Modelled from the specification §4.6 and claim C7: the CashAddr-style
address is `"bitcoincash:"` followed by the base-32 encoding of
`payload5bit ‖ checksum5bit`, where `payload5bit` regroups
`0x00 ‖ HASH160(pubkey)` into 5-bit groups with padding and
`checksum5bit` is the eight 5-bit groups of the low 40 bits of the
polymod of: the prefix characters masked to 5 bits, a zero, the payload,
and eight zero groups. -/
def spec_cashaddr (pubkey : List Nat) : String :=
  let payload5bit := convert_bits (0x00 :: hash160 pubkey) 8 5 true
  let pm := spec_polymod (("bitcoincash".toList.map fun c => c.toNat % 32)
      ++ [0] ++ payload5bit ++ List.replicate 8 0)
  "bitcoincash:" ++ encode_base32 (payload5bit ++ beDigits 5 8 pm)

theorem and_mask_31 (x : Nat) : x &&& 31 = x % 32 := by
  have h := Nat.and_pow_two_sub_one_eq_mod x 5
  norm_num at h
  exact h

theorem and_pow2_ne_zero_iff (x i : Nat) : (x &&& 2 ^ i ≠ 0) ↔ x.testBit i = true := by
  rw [Nat.and_two_pow]
  cases h : x.testBit i <;> simp [h]

theorem polymod_eq_spec_polymod (values : List Nat) :
    polymod values = spec_polymod values := by
  unfold polymod spec_polymod
  have hstep : (fun (c d : Nat) =>
      let c0 := c >>> 35
      let c1 := ((c &&& 0x07FFFFFFFF) <<< 5) ^^^ d
      let c2 := if c0 &&& 0x01 ≠ 0 then c1 ^^^ 0x98F2BC8E61 else c1
      let c3 := if c0 &&& 0x02 ≠ 0 then c2 ^^^ 0x79B76D99E2 else c2
      let c4 := if c0 &&& 0x04 ≠ 0 then c3 ^^^ 0xF33E5FB3C4 else c3
      let c5 := if c0 &&& 0x08 ≠ 0 then c4 ^^^ 0xAE2EABE2A8 else c4
      if c0 &&& 0x10 ≠ 0 then c5 ^^^ 0x1E4F43E470 else c5)
      = (fun (c d : Nat) =>
      let c0 := c / 2 ^ 35
      (List.range 5).foldl
        (fun acc i => if c0.testBit i then acc ^^^ spec_polymodGenerator.getD i 0 else acc)
        ((c % 2 ^ 35) * 2 ^ 5 ^^^ d)) := by
    funext c d
    have hr5 : List.range 5 = [0, 1, 2, 3, 4] := rfl
    have hmask : c &&& 0x07FFFFFFFF = c % 2 ^ 35 := by
      have h := Nat.and_pow_two_sub_one_eq_mod c 35
      norm_num at h
      exact h
    have hbit : ∀ i m, 2 ^ i = m →
        ((c >>> 35 &&& m ≠ 0) ↔ (c / 2 ^ 35).testBit i = true) := by
      intro i m hm
      rw [Nat.shiftRight_eq_div_pow, ← hm]
      exact and_pow2_ne_zero_iff (c / 2 ^ 35) i
    have h0 := hbit 0 1 rfl
    have h1 := hbit 1 2 rfl
    have h2 := hbit 2 4 rfl
    have h3 := hbit 3 8 rfl
    have h4 := hbit 4 16 rfl
    dsimp only
    rw [hr5]
    simp only [List.foldl_cons, List.foldl_nil, spec_polymodGenerator,
      List.getD_cons_zero, List.getD_cons_succ, hmask, Nat.shiftLeft_eq,
      h0, h1, h2, h3, h4]
  rw [hstep]

theorem range8_shift_mask (pm : Nat) :
    (List.range 8).map (fun i => (pm >>> (5 * (7 - i))) &&& 0x1F) = beDigits 5 8 pm := by
  have hr8 : List.range 8 = [0, 1, 2, 3, 4, 5, 6, 7] := rfl
  rw [hr8]
  simp only [List.map_cons, List.map_nil, beDigits, Nat.shiftRight_eq_div_pow, and_mask_31]
  norm_num

/-- C7: for every public key, the CashAddr-style address the code computes
is exactly the specification's: `"bitcoincash:"` plus the base-32 encoding
(charset `qpzry9x8gf2tvdw0s3jn54khce6mua7l`) of the padded 5-bit regrouping
of `0x00 ‖ HASH160(pubkey)` followed by the eight 5-bit groups of the low
40 bits of the BCH polymod (five fixed generator constants, final XOR
with 1) of prefix-mask ‖ 0 ‖ payload ‖ eight zeros. -/
theorem c7_cashaddr_matches_spec (pubkey : List Nat) :
    public_key_to_cashaddr_address pubkey = spec_cashaddr pubkey := by
  unfold public_key_to_cashaddr_address spec_cashaddr create_checksum
  dsimp only
  rw [polymod_eq_spec_polymod, range8_shift_mask]
  have hpfx : ("bitcoincash".toList.map fun x => x.toNat &&& 0x1F)
      = ("bitcoincash".toList.map fun c => c.toNat % 32) := by decide
  have hrep : (List.replicate 8 0 : List Nat) = [0, 0, 0, 0, 0, 0, 0, 0] := rfl
  rw [hpfx, hrep]

/-! ## Claim C8: the three validation failures of `_validate_mnemonic` -/

/-- The concatenated 11-bit index strings of a mnemonic whose words are all
in the word list (the `bin_mnemonic` value of `Seed._validate_mnemonic`). -/
def mnemonicBits (wordlist mnemonic : List String) : List Nat :=
  (mnemonic.map fun w => zfill 11 (pyBin ((pyIndexOf wordlist w).getD 0))).flatten

theorem pyIndexOf_absent (wl : List String) (w : String) (h : w ∉ wl) :
    pyIndexOf wl w = none := by
  induction wl with
  | nil => rfl
  | cons x xs ih =>
    have hx : ¬(x = w) := fun he => h (by simp [he])
    simp [pyIndexOf, hx, ih (fun hm => h (by simp [hm]))]

theorem pyIndexOf_present (wl : List String) (w : String) (h : w ∈ wl) :
    ∃ i, pyIndexOf wl w = some i ∧ i < wl.length := by
  induction wl with
  | nil => simp at h
  | cons x xs ih =>
    by_cases hx : x = w
    · exact ⟨0, by simp [pyIndexOf, hx], by simp⟩
    · have hm : w ∈ xs := by
        rcases List.mem_cons.mp h with h1 | h1
        · exact absurd h1.symm hx
        · exact h1
      obtain ⟨i, hi, hlt⟩ := ih hm
      refine ⟨i + 1, by simp [pyIndexOf, hx, hi], ?_⟩
      rw [List.length_cons]
      omega

theorem wordIndexBits_first_absent (wl pre : List String) (w : String)
    (post : List String) (hpre : ∀ v ∈ pre, v ∈ wl) (hw : w ∉ wl) :
    wordIndexBits wl (pre ++ w :: post)
      = .error ⟨"InvalidSeedException", "Word '" ++ w ++ "' not in wordlist"⟩ := by
  induction pre with
  | nil =>
    rw [List.nil_append]
    show (match pyIndexOf wl w with
      | none => Except.error (PyException.mk "InvalidSeedException"
          ("Word '" ++ w ++ "' not in wordlist"))
      | some i => (wordIndexBits wl post).map fun rest => zfill 11 (pyBin i) :: rest) = _
    rw [pyIndexOf_absent wl w hw]
  | cons p pre ih =>
    obtain ⟨i, hi, _⟩ := pyIndexOf_present wl p (hpre p (by simp))
    rw [List.cons_append]
    show (match pyIndexOf wl p with
      | none => Except.error (PyException.mk "InvalidSeedException"
          ("Word '" ++ p ++ "' not in wordlist"))
      | some i => (wordIndexBits wl (pre ++ w :: post)).map
          fun rest => zfill 11 (pyBin i) :: rest) = _
    rw [hi, ih (fun v hv => hpre v (by simp [hv]))]
    rfl

theorem wordIndexBits_all_present (wl ws : List String) (h : ∀ w ∈ ws, w ∈ wl) :
    wordIndexBits wl ws
      = .ok (ws.map fun w => zfill 11 (pyBin ((pyIndexOf wl w).getD 0))) := by
  induction ws with
  | nil => rfl
  | cons w ws ih =>
    obtain ⟨i, hi, _⟩ := pyIndexOf_present wl w (h w (by simp))
    show (match pyIndexOf wl w with
      | none => Except.error (PyException.mk "InvalidSeedException"
          ("Word '" ++ w ++ "' not in wordlist"))
      | some i => (wordIndexBits wl ws).map fun rest => zfill 11 (pyBin i) :: rest) = _
    rw [hi, ih (fun v hv => h v (by simp [hv]))]
    rw [List.map_cons, hi, Option.getD_some]
    rfl

theorem natDigits_length_le (b : Nat) (hb : 2 ≤ b) :
    ∀ n k, n < b ^ k → (natDigits b n).length ≤ k := by
  intro n
  induction n using Nat.strong_induction_on with
  | _ n ih =>
    intro k hk
    rcases Nat.eq_zero_or_pos n with h0 | h0
    · subst h0; simp [natDigits, natDigitsAux]
    · rw [natDigits_step b n hb (by omega), List.length_append]
      cases k with
      | zero =>
        exfalso
        rw [pow_zero] at hk
        omega
      | succ k =>
        have hq : n / b < b ^ k := by
          apply Nat.div_lt_of_lt_mul
          calc n < b ^ (k + 1) := hk
            _ = b * b ^ k := by ring
        have hrec := ih (n / b) (Nat.div_lt_self h0 (by omega)) k hq
        simp only [List.length_cons, List.length_nil]
        omega

theorem pyBin_length_le (i k : Nat) (hi : i < 2 ^ k) (hk : 1 ≤ k) :
    (pyBin i).length ≤ k := by
  unfold pyBin
  split
  · simpa using hk
  · exact natDigits_length_le 2 (by norm_num) i k hi

theorem pyBin_lt (i : Nat) : ∀ d ∈ pyBin i, d < 2 := by
  unfold pyBin
  split
  · intro d hd; simp at hd; omega
  · exact natDigits_lt 2 (by norm_num) i

theorem zfill_lt (k : Nat) (ds : List Nat) (h : ∀ d ∈ ds, d < 2) :
    ∀ d ∈ zfill k ds, d < 2 := by
  intro d hd
  rcases List.mem_append.mp hd with hd | hd
  · rw [List.eq_of_mem_replicate hd]; omega
  · exact h d hd

theorem zfill_length_of_le (k : Nat) (ds : List Nat) (h : ds.length ≤ k) :
    (zfill k ds).length = k := by
  rw [zfill, List.length_append, List.length_replicate]
  omega

theorem flatten_map_length (f : String → List Nat) (l : List String) (k : Nat)
    (h : ∀ x ∈ l, (f x).length = k) : ((l.map f).flatten).length = k * l.length := by
  induction l with
  | nil => simp
  | cons x xs ih =>
    rw [List.map_cons, List.flatten_cons, List.length_append,
      h x (by simp), ih (fun v hv => h v (by simp [hv])), List.length_cons]
    ring

theorem mnemonicBits_length (wl m : List String) (h : ∀ w ∈ m, w ∈ wl)
    (hwl : wl.length ≤ 2048) : (mnemonicBits wl m).length = 11 * m.length := by
  unfold mnemonicBits
  apply flatten_map_length
  intro w hw
  obtain ⟨i, hi, hlt⟩ := pyIndexOf_present wl w (h w hw)
  rw [hi, Option.getD_some]
  exact zfill_length_of_le 11 _ (pyBin_length_le i 11 (by norm_num; omega) (by norm_num))

theorem mnemonicBits_lt (wl m : List String) : ∀ b ∈ mnemonicBits wl m, b < 2 := by
  intro b hb
  obtain ⟨l, hl, hbl⟩ := List.mem_flatten.mp hb
  obtain ⟨w, _, rfl⟩ := List.mem_map.mp hl
  exact zfill_lt 11 _ (pyBin_lt _) b hbl

theorem bitsToNat_lt (bs : List Nat) (h : ∀ b ∈ bs, b < 2) :
    bitsToNat bs < 2 ^ bs.length := by
  have hv := valueOf_lt 1 bs (by intro d hd; rw [pow_one]; exact h d hd)
  rw [one_mul] at hv
  exact hv

/-- C8 (corrected): all three validation failures of `_validate_mnemonic`
raise the single exception class `InvalidSeedException`, distinguishable
only by their message strings, not by type: a first word absent from the
word list raises it with message `Word '<w>' not in wordlist`, a total bit
length outside the table raises it with message `Invalid mnemonic length`,
and a trailing checksum that disagrees with the recomputed SHA-256
checksum prefix raises it with message `Checksum validation failed`. -/
theorem c8_validate_mnemonic_single_exception_class (wordlist mnemonic : List String) :
    (∀ pre w post, mnemonic = pre ++ w :: post → (∀ v ∈ pre, v ∈ wordlist) →
        w ∉ wordlist →
        _validate_mnemonic wordlist mnemonic
          = .error ⟨"InvalidSeedException", "Word '" ++ w ++ "' not in wordlist"⟩)
    ∧ ((∀ w ∈ mnemonic, w ∈ wordlist) → wordlist.length ≤ 2048 →
        checksumBitsOf (11 * mnemonic.length) = none →
        _validate_mnemonic wordlist mnemonic
          = .error ⟨"InvalidSeedException", "Invalid mnemonic length"⟩)
    ∧ (∀ cb, (∀ w ∈ mnemonic, w ∈ wordlist) → wordlist.length ≤ 2048 →
        checksumBitsOf (11 * mnemonic.length) = some cb →
        (mnemonicBits wordlist mnemonic).drop (11 * mnemonic.length - cb)
          ≠ (zfill 256 (pyBin (bytesToNat (sha256 (beBytes
              ((11 * mnemonic.length - cb) / 8)
              (bitsToNat ((mnemonicBits wordlist mnemonic).take
                (11 * mnemonic.length - cb)))))))).take cb →
        _validate_mnemonic wordlist mnemonic
          = .error ⟨"InvalidSeedException", "Checksum validation failed"⟩) := by
  refine ⟨?_, ?_, ?_⟩
  · intro pre w post hm hpre hw
    subst hm
    unfold _validate_mnemonic
    rw [wordIndexBits_first_absent wordlist pre w post hpre hw]
  · intro hall hwl hnone
    unfold _validate_mnemonic
    rw [wordIndexBits_all_present wordlist mnemonic hall]
    dsimp only
    rw [show (mnemonic.map fun w => zfill 11 (pyBin ((pyIndexOf wordlist w).getD 0))).flatten
        = mnemonicBits wordlist mnemonic from rfl]
    rw [mnemonicBits_length wordlist mnemonic hall hwl, hnone]
  · intro cb hall hwl hsome hneq
    have hlen := mnemonicBits_length wordlist mnemonic hall hwl
    have hbits := mnemonicBits_lt wordlist mnemonic
    have hcases : (11 * mnemonic.length = 132 ∧ cb = 4)
        ∨ (11 * mnemonic.length = 165 ∧ cb = 5)
        ∨ (11 * mnemonic.length = 198 ∧ cb = 6)
        ∨ (11 * mnemonic.length = 231 ∧ cb = 7)
        ∨ (11 * mnemonic.length = 264 ∧ cb = 8) := by
      unfold checksumBitsOf at hsome
      split_ifs at hsome with h1 h2 h3 h4 h5
      · exact Or.inl ⟨h1, (Option.some.inj hsome).symm⟩
      · exact Or.inr (Or.inl ⟨h2, (Option.some.inj hsome).symm⟩)
      · exact Or.inr (Or.inr (Or.inl ⟨h3, (Option.some.inj hsome).symm⟩))
      · exact Or.inr (Or.inr (Or.inr (Or.inl ⟨h4, (Option.some.inj hsome).symm⟩)))
      · exact Or.inr (Or.inr (Or.inr (Or.inr ⟨h5, (Option.some.inj hsome).symm⟩)))
    unfold _validate_mnemonic
    rw [wordIndexBits_all_present wordlist mnemonic hall]
    dsimp only
    rw [show (mnemonic.map fun w => zfill 11 (pyBin ((pyIndexOf wordlist w).getD 0))).flatten
        = mnemonicBits wordlist mnemonic from rfl]
    rw [hlen, hsome]
    dsimp only
    have htake_len : ((mnemonicBits wordlist mnemonic).take
        (11 * mnemonic.length - cb)).length = 11 * mnemonic.length - cb := by
      rw [List.length_take, hlen]
      omega
    have hmod : (11 * mnemonic.length - cb) % 8 = 0 := by
      rcases hcases with ⟨h, h'⟩ | ⟨h, h'⟩ | ⟨h, h'⟩ | ⟨h, h'⟩ | ⟨h, h'⟩ <;> omega
    have hpow : (2 : Nat) ^ (11 * mnemonic.length - cb)
        = 256 ^ ((11 * mnemonic.length - cb) / 8) := by
      rcases hcases with ⟨h, h'⟩ | ⟨h, h'⟩ | ⟨h, h'⟩ | ⟨h, h'⟩ | ⟨h, h'⟩ <;>
        rw [h, h'] <;> norm_num
    have hx : bitsToNat ((mnemonicBits wordlist mnemonic).take (11 * mnemonic.length - cb))
        < 256 ^ (((mnemonicBits wordlist mnemonic).take
            (11 * mnemonic.length - cb)).length / 8) := by
      rw [htake_len, ← hpow]
      have h1 := bitsToNat_lt ((mnemonicBits wordlist mnemonic).take
          (11 * mnemonic.length - cb))
        (fun b hb => hbits b (List.mem_of_mem_take hb))
      rw [htake_len] at h1
      exact h1
    rw [if_neg (by rw [htake_len]; omega)]
    rw [show toBytesBE (bitsToNat ((mnemonicBits wordlist mnemonic).take
          (11 * mnemonic.length - cb)))
        (((mnemonicBits wordlist mnemonic).take (11 * mnemonic.length - cb)).length / 8)
        = some (beBytes (((mnemonicBits wordlist mnemonic).take
            (11 * mnemonic.length - cb)).length / 8)
          (bitsToNat ((mnemonicBits wordlist mnemonic).take (11 * mnemonic.length - cb))))
        from by unfold toBytesBE; rw [if_pos hx]]
    dsimp only
    rw [htake_len]
    rw [if_pos hneq]

set_option maxRecDepth 40000 in
theorem c8_validate_mnemonic_witness :
    _validate_mnemonic (List.replicate 2048 "abandon") ["zebra"]
        = .error ⟨"InvalidSeedException", "Word 'zebra' not in wordlist"⟩
    ∧ _validate_mnemonic (List.replicate 2048 "abandon") ["abandon"]
        = .error ⟨"InvalidSeedException", "Invalid mnemonic length"⟩
    ∧ _validate_mnemonic (List.replicate 2048 "abandon") (List.replicate 12 "abandon")
        = .error ⟨"InvalidSeedException", "Checksum validation failed"⟩ := by
  refine ⟨?_, ?_, ?_⟩
  · exact (c8_validate_mnemonic_single_exception_class
        (List.replicate 2048 "abandon") ["zebra"]).1 [] "zebra" [] rfl
      (by intro v hv; simp at hv)
      (by intro h
          obtain ⟨-, h'⟩ := List.mem_replicate.mp h
          exact absurd h' (by decide))
  · exact (c8_validate_mnemonic_single_exception_class
        (List.replicate 2048 "abandon") ["abandon"]).2.1
      (by intro w hw
          simp only [List.mem_singleton] at hw
          subst hw
          exact List.mem_replicate.mpr ⟨by norm_num, rfl⟩)
      (by simp)
      rfl
  · exact (c8_validate_mnemonic_single_exception_class
        (List.replicate 2048 "abandon") (List.replicate 12 "abandon")).2.2 4
      (by intro w hw
          rw [List.eq_of_mem_replicate hw]
          exact List.mem_replicate.mpr ⟨by norm_num, rfl⟩)
      (by simp)
      rfl
      (by decide)

/-- Two different validation failures (an unknown word, and a wrong length)
both raise an exception of the very same class `InvalidSeedException`: the
failure kinds are not distinguishable by a typed condition, only by the
message string. -/
theorem c8_single_class_counterexample :
    ∃ e1 e2 : PyException,
      _validate_mnemonic ["abandon"] ["zebra"] = .error e1
      ∧ _validate_mnemonic ["abandon"] ["abandon"] = .error e2
      ∧ e1.cls = e2.cls ∧ e1.cls = "InvalidSeedException" ∧ e1.msg ≠ e2.msg :=
  ⟨⟨"InvalidSeedException", "Word 'zebra' not in wordlist"⟩,
   ⟨"InvalidSeedException", "Invalid mnemonic length"⟩, rfl, rfl, rfl, rfl, by decide⟩

end SeedCash
